import Mathlib

/-!
Verification development for the rpn-c calculator core
(`src/calculator/mod.rs`, `src/calculator/utils.rs`,
`src/calculator/execution.rs`, `src/calculator/strings.rs`).

The Rust code is shallowly embedded: every definition below transcribes one
Rust item and is named after it.  Conventions used throughout:

* `ramp::rational::Rational` is modelled by `ℚ` (exact rationals; `normalize`
  is a no-op on `ℚ` and is therefore dropped).
* `ramp::Int` division (`num / den`) follows the Rust primitive convention
  and rounds towards zero; it is modelled by `Int.tdiv`.
* `HashMap<String, Object>` is modelled by an association list together with
  `lookupT`/`insertT`; `insertT` prepends, which is observationally equal to
  `HashMap::insert` under `lookupT`.
* Rust `panic!` sites are modelled by `Option`/dedicated constructors
  (`none` or `.corrupt` means the Rust code would abort the process).
* The evaluator `reduce` is a loop in Rust (manual tail-call optimization).
  The model takes two resource parameters: `fuel`, spent once per iteration
  of that loop (a pure termination device), and `depth`, spent only when the
  Rust code makes a *native* recursive call to `reduce` (subtree argument
  evaluation).  `depth` therefore measures process-stack usage, and loop
  iterations (the tail-call-optimized paths) leave it unchanged.
* Diagnostics printed with `eprintln!` in the dispatcher and in `clip_head`
  are collected in a `List String`; values printed to stdout are not part of
  any claim about program state and are not modelled.
-/

namespace RpnC

/-- `Token` from `src/calculator/mod.rs`.  The lexer-carried payloads of
`AssignVariable` (leading `=` already stripped, as `analyze` does),
`AssignFunction` and `AssignIterative` (the `name|N` / `name@N` strings
already split into name and arity, as `analyze` does) are stored
structurally; `Number` carries the exact rational. -/
inductive Token where
  | Identifier (name : String)
  | AssignVariable (name : String)
  | AssignFunction (name : String) (arity : Nat)
  | AssignIterative (name : String) (arity : Nat)
  | Argument (index : Nat)
  | Number (value : ℚ)
  | Minus
  | Plus
  | Times
  | Divide
  | PositiveMinus
  | IntegerDiv
  | Exp
  | ExpMod
  | If
  | Return
  | Partial
  | Print
  | Flush
  | Duplicate
  | Drop
  | Empty
  | Format
  | Approx
  | Error
deriving DecidableEq

/-- `ExecTree` from `src/calculator/execution.rs`: a token with the ordered
list of its subtrees. -/
inductive ExecTree where
  | mk (token : Token) (arguments : List ExecTree)

/-- Projection matching the Rust field `ExecTree::token`. -/
def ExecTree.token : ExecTree → Token
  | .mk t _ => t

/-- Projection matching the Rust field `ExecTree::arguments`. -/
def ExecTree.arguments : ExecTree → List ExecTree
  | .mk _ a => a

/-- `Object` from `src/calculator/execution.rs`. -/
inductive Object where
  | Variable (value : ℚ)
  | Function (arity : Nat) (body : ExecTree)
  | Iterative (arity : Nat) (updates : List ExecTree) (finalizer : ExecTree)
      (condition : ExecTree)

/-- The symbol table `HashMap<String, Object>`, as an association list. -/
abbrev Table := List (String × Object)

/-- `HashMap::get`: first binding wins (later `insertT`s shadow earlier
ones). -/
def lookupT : Table → String → Option Object
  | [], _ => none
  | (k, v) :: rest, name => if k = name then some v else lookupT rest name

/-- `HashMap::insert`, observed through `lookupT` only; the value previously
bound (the Rust return value of `insert`) is recovered by `lookupT` before
inserting. -/
def insertT (table : Table) (name : String) (obj : Object) : Table :=
  (name, obj) :: table

/-- `Found` from `src/calculator/utils.rs`. -/
inductive Found where
  | NotFound
  | FoundAt (index : Nat)
deriving DecidableEq

/-- The tokens that the dispatcher ever pushes on the working stack
(operands, identifiers and the binary/ternary operators); all other tokens
are consumed by `analyze` (and make the scanners panic if they did reach the
stack). -/
def isExprToken : Token → Bool
  | .Identifier _ => true
  | .Argument _ => true
  | .Number _ => true
  | .Plus => true
  | .Minus => true
  | .Times => true
  | .Divide => true
  | .PositiveMinus => true
  | .IntegerDiv => true
  | .Exp => true
  | .ExpMod => true
  | .If => true
  | _ => false

/-- Arity of an identifier as the scanners and the tree builder obtain it
from the table: `Function`/`Iterative` contribute their declared arity,
anything else (unknown name or `Variable`) contributes 0.  This is the
`match self.table.get(name)` shared by `clip_head`, `extract_function`,
`parse_tree` and the `Drop` branch of `analyze`. -/
def tableArity (table : Table) (name : String) : Nat :=
  match lookupT table name with
  | some (.Function arity _) => arity
  | some (.Iterative arity _ _ _) => arity
  | _ => 0

/-- Operand count of one token in `Calculator::extract_function`
(`src/calculator/mod.rs`): a self-reference to the name being defined uses
the arity carried by the assignment token; other identifiers consult the
table; `Number`/`Argument` take 0 operands; binary operators 2; `If` and
`ExpMod` 3.  `none` corresponds to the `panic!("Corrupted stack")` arm. -/
def extArity (fname : String) (farity : Nat) (table : Table) : Token → Option Nat
  | .Identifier name => some (if name = fname then farity else tableArity table name)
  | .Number _ => some 0
  | .Argument _ => some 0
  | .Plus => some 2
  | .Minus => some 2
  | .Times => some 2
  | .Divide => some 2
  | .PositiveMinus => some 2
  | .IntegerDiv => some 2
  | .Exp => some 2
  | .If => some 3
  | .ExpMod => some 3
  | _ => none

/-- The loop of `Calculator::extract_function`: `to_copy` starts at 1; a
token of operand count `a` turns `to_copy` from `tc + 1` into `tc + a`
(the Rust `to_copy += a; to_copy -= 1`); the loop stops with success as
soon as `to_copy = 0` and with `NotFound` when the scanned region is
exhausted first.  `none` models the `panic!("Corrupted stack")`. -/
def extract_function_aux (fname : String) (farity : Nat) (table : Table)
    (stack : List Token) : Nat → Nat → Option Found
  | index, 0 => some (.FoundAt index)
  | 0, _ + 1 => some .NotFound
  | index + 1, tc + 1 =>
    match extArity fname farity table (stack.getD index .Error) with
    | none => none
    | some a => extract_function_aux fname farity table stack index (tc + a)

/-- `Calculator::extract_function(function_name, arity, index)`: scan the
stack slice `[0, index)` leftward from `index`. -/
def extract_function (fname : String) (farity : Nat) (table : Table)
    (stack : List Token) (index : Nat) : Option Found :=
  extract_function_aux fname farity table stack index 1

/-- Result of the scanning loop of `clip_head` (`src/calculator/utils.rs`):
`found i` is `to_copy = 0` at index `i`; `exhausted` is running out of
stack with `to_copy > 0`; `argHit` is the `Argument` arm, which prints
`Arguments are only allowed in functions` and forces the loop to end with
`to_copy > 0`; `corrupt` is the `panic!("Corrupted stack")` arm. -/
inductive ClipRes where
  | found (index : Nat)
  | exhausted
  | argHit
  | corrupt
deriving DecidableEq

/-- The loop of `clip_head`.  Unlike `extract_function` it has no
self-reference case and it aborts on `Argument` tokens (top-level
expressions may not use arguments). -/
def clip_head_aux (table : Table) (stack : List Token) : Nat → Nat → ClipRes
  | index, 0 => .found index
  | 0, _ + 1 => .exhausted
  | index + 1, tc + 1 =>
    match stack.getD index .Error with
    | .Identifier name => clip_head_aux table stack index (tc + tableArity table name)
    | .Number _ => clip_head_aux table stack index tc
    | .Argument _ => .argHit
    | .Plus => clip_head_aux table stack index (tc + 2)
    | .Minus => clip_head_aux table stack index (tc + 2)
    | .Times => clip_head_aux table stack index (tc + 2)
    | .Divide => clip_head_aux table stack index (tc + 2)
    | .PositiveMinus => clip_head_aux table stack index (tc + 2)
    | .IntegerDiv => clip_head_aux table stack index (tc + 2)
    | .Exp => clip_head_aux table stack index (tc + 2)
    | .If => clip_head_aux table stack index (tc + 3)
    | .ExpMod => clip_head_aux table stack index (tc + 3)
    | _ => .corrupt

/-- Diagnostic printed by the `Argument` arm of `clip_head`. -/
def argMsg : String := "Arguments are only allowed in functions"

/-- Diagnostic of a failed top-level computation. -/
def incompleteMsg : String := "Incomplete expression"

/-- Diagnostic of a failed computation in `Duplicate`/`AssignVariable`. -/
def incompleteDroppedMsg : String := "Incomplete expression, dropped stack"

/-- Diagnostic of a failed function/iterative declaration. -/
def incompleteFunMsg : String := "Incomplete function declaration"

/-- Diagnostic of a lexical error token. -/
def droppedTokenMsg : String := "Dropped unrecognized token!"

/-- `clip_head(stack, table)`: on success (`to_copy = 0` at index `i`) it
returns `stack.split_off(i)` as the expression and leaves `stack.take i`
behind; otherwise it returns the empty expression and leaves the stack
untouched.  Result components: extracted expression, remaining stack,
diagnostics; `none` is the corrupted-stack panic. -/
def clip_head (stack : List Token) (table : Table) :
    Option (List Token × List Token × List String) :=
  match clip_head_aux table stack stack.length 1 with
  | .corrupt => none
  | .argHit => some ([], stack, [argMsg])
  | .exhausted => some ([], stack, [])
  | .found i => some (stack.drop i, stack.take i, [])

/-- Operand count of one token in `parse_tree`
(`src/calculator/execution.rs`): identifiers bound to `Function`/`Iterative`
consume their declared arity; other identifiers, `Number` and `Argument`
are leaves; binary operators consume 2; `If`/`ExpMod` consume 3.  `none`
models the `panic!("Corrupted stack")` arm.  The `Drop` branch of `analyze`
performs the same case distinction. -/
def buildArity (table : Table) : Token → Option Nat
  | .Identifier name => some (tableArity table name)
  | .Number _ => some 0
  | .Argument _ => some 0
  | .Plus => some 2
  | .Minus => some 2
  | .Times => some 2
  | .Divide => some 2
  | .PositiveMinus => some 2
  | .IntegerDiv => some 2
  | .Exp => some 2
  | .If => some 3
  | .ExpMod => some 3
  | _ => none

/-- The loop of `parse_tree`: for each token of operand count `a`, pop the
last `a` trees from the scratch stack (`arguments.split_off(len - a)`) and
push the new node.  `none` models both the corrupted-stack panic and the
panic raised by `split_off` when fewer than `a` trees are available. -/
def parse_tree_aux (table : Table) : List Token → List ExecTree → Option (List ExecTree)
  | [], acc => some acc
  | t :: rest, acc =>
    match buildArity table t with
    | none => none
    | some a =>
      if acc.length < a then none
      else
        parse_tree_aux table rest
          (acc.take (acc.length - a) ++ [.mk t (acc.drop (acc.length - a))])

/-- `parse_tree(stack, table)`: run the loop from an empty scratch stack and
return the last tree (`arguments.pop().unwrap()`; `none` if the scratch
stack ended up empty, which is the unwrap panic). -/
def parse_tree (table : Table) (tokens : List Token) : Option ExecTree :=
  match parse_tree_aux table tokens [] with
  | none => none
  | some acc => acc.getLast?

/-- Result of one (resource-bounded) run of `reduce`: `out` means the model
ran out of `fuel` or `depth` (in Rust the computation would simply keep
going, or need more native stack); `val r` is the Rust return value
`r : Option<Rational>` (`none` = evaluation error). -/
inductive RRes where
  | out
  | val (r : Option ℚ)
deriving DecidableEq

/-- Truncating rational-to-integer conversion: `(num, den) = q.into_parts()`
followed by the ramp integer division `num / den`, which rounds towards
zero like Rust's primitive `/`.  (`ℚ` keeps `den > 0`, and truncation is
independent of the chosen representation of the fraction.) -/
def ratTrunc (q : ℚ) : ℤ :=
  Int.tdiv q.num (q.den : ℤ)

/-- `floor_abs`-style conversion used by the `Exp` and `ExpMod` branches:
`(num / den).abs()`. -/
def truncAbs (q : ℚ) : ℕ :=
  (ratTrunc q).natAbs

/-- The square-and-multiply loop of the `Exp` branch of `reduce`:
`while !b.is_zero { if !b.is_even { result *= a }; b /= 2; a *= a }`. -/
def expLoop (a : ℚ) (b : ℕ) (result : ℚ) : ℚ :=
  if b = 0 then result
  else expLoop (a * a) (b / 2) (if b % 2 = 1 then result * a else result)
termination_by b
decreasing_by exact Nat.div_lt_self (Nat.pos_of_ne_zero (by assumption)) (by omega)

/-- `a.pow_mod(&b, &c)` from ramp on the truncated first argument and the
truncated absolute values of the other two: `a ^ b` reduced modulo `c`
(Euclidean remainder; for the nonnegative bases exercised here this is the
plain remainder). -/
def powMod (a : ℤ) (b c : ℕ) : ℤ :=
  Int.emod (a ^ b) (c : ℤ)

/-- The binary-operator dispatch at the bottom of `reduce` (the `_` arm of
the Rust `match token`), after both subtree values are available.  `none`
is an evaluation error (`Cannot divide by zero`); tokens that are not
binary operators make the Rust code panic (`Corrupted stack`), modelled
here as an error result (no claim concerns that arm). -/
def opResult : Token → ℚ → ℚ → Option ℚ
  | .Plus, a, b => some (a + b)
  | .Minus, a, b => some (a - b)
  | .Times, a, b => some (a * b)
  | .Divide, a, b => if b = 0 then none else some (a / b)
  | .PositiveMinus, a, b => if 0 < a - b then some (a - b) else some 0
  | .IntegerDiv, a, b => if b = 0 then none else some ((ratTrunc (a / b) : ℚ))
  | .Exp, a, b => some (expLoop a (truncAbs b) 1)
  | _, _, _ => none

/-- `run_function` from `src/calculator/execution.rs`: refuse to run if any
argument slot failed to compute, otherwise reduce the tree.  `red` is the
nested evaluator (a `reduce` call at one more native stack frame). -/
def run_function (red : ExecTree → List (Option ℚ) → RRes)
    (ops : ExecTree) (args : List (Option ℚ)) : RRes :=
  if args.any (fun a => a.isNone) then .val none else red ops args

/-- Collapse the evaluation of a list of subtrees: `none` as soon as any of
them ran out of resources, otherwise the list of their Rust results. -/
def collectVals : List RRes → Option (List (Option ℚ))
  | [] => some []
  | .out :: _ => none
  | .val r :: rest =>
    match collectVals rest with
    | none => none
    | some l => some (r :: l)

/-- The `while let (Some(value), false) = (run_function(cond, ...), stop)`
loop of the `Iterative` branch of `reduce`: while the condition computes a
nonzero value, recompute every argument slot from the update expressions
(slots may become `none`; they are only checked after the loop).  The loop
exits, returning the current slots, when the condition computes 0 or fails
to compute.  The extra `Nat` is iteration fuel; `none` means fuel or a
nested evaluation ran out. -/
def iterLoop (red : ExecTree → List (Option ℚ) → RRes) (cond : ExecTree)
    (exps : List ExecTree) : Nat → List (Option ℚ) → Option (List (Option ℚ))
  | 0, _ => none
  | n + 1, funcArgs =>
    match run_function red cond funcArgs with
    | .out => none
    | .val none => some funcArgs
    | .val (some v) =>
      if v = 0 then some funcArgs
      else
        match collectVals (exps.map (fun e => run_function red e funcArgs)) with
        | none => none
        | some funcArgs' => iterLoop red cond exps n funcArgs'

/-- A placeholder subtree; `reduce` indexes `arguments[0..2]` directly in
Rust (panicking on malformed trees); the model reads with `getD` against
this default, which is never reached on trees built by `parse_tree`. -/
def defTree : ExecTree := .mk (.Number 0) []

/-- `ExecTree::reduce` from `src/calculator/execution.rs`.

The Rust function is an explicit loop over a mutable
`(token, arguments, args)` triple: the `If` arms, the body of a called
`Function` and the finalizer of an `Iterative` *replace* the current state
(tail-call optimization) instead of recursing natively; only subtree
evaluations (operands, call arguments, iterative conditions/updates) are
native recursive calls.

Accordingly the model spends one unit of `fuel` per `reduce` call (a pure
termination device, structural so that concrete runs evaluate) and one
unit of `depth` only on native recursive calls; tail steps keep `depth`
unchanged.  `.out` is returned when either resource is exhausted. -/
def reduce : Nat → Nat → ExecTree → Table → List (Option ℚ) → RRes
  | 0, _, _, _, _ => .out
  | fuel + 1, depth, .mk tok arguments, table, args =>
    match tok with
    | .If =>
      match depth with
      | 0 => .out
      | d + 1 =>
        match reduce fuel d (arguments.getD 2 defTree) table args with
        | .out => .out
        | .val none => .val none
        | .val (some condition) =>
          if condition = 0 then reduce fuel (d + 1) (arguments.getD 1 defTree) table args
          else reduce fuel (d + 1) (arguments.getD 0 defTree) table args
    | .Number v => .val (some v)
    | .Identifier name =>
      match lookupT table name with
      | none => .val none
      | some (.Variable v) => .val (some v)
      | some (.Function arity ops) =>
        if arguments.length ≠ arity then .val none
        else
          match depth with
          | 0 => .out
          | d + 1 =>
            match collectVals (arguments.map (fun a => reduce fuel d a table args)) with
            | none => .out
            | some funcArgs =>
              if funcArgs.any (fun a => a.isNone) then .val none
              else reduce fuel (d + 1) ops table funcArgs
      | some (.Iterative arity exps last cond) =>
        if arguments.length ≠ arity then .val none
        else
          match depth with
          | 0 => .out
          | d + 1 =>
            match collectVals (arguments.map (fun a => reduce fuel d a table args)) with
            | none => .out
            | some funcArgs =>
              match iterLoop (fun t a => reduce fuel d t table a) cond exps
                  (fuel + 1) funcArgs with
              | none => .out
              | some funcArgs' =>
                if funcArgs'.any (fun a => a.isNone) then .val none
                else reduce fuel (d + 1) last table funcArgs'
    | .Argument index => .val (args.getD index none)
    | .ExpMod =>
      match depth with
      | 0 => .out
      | d + 1 =>
        match reduce fuel d (arguments.getD 0 defTree) table args,
            reduce fuel d (arguments.getD 1 defTree) table args,
            reduce fuel d (arguments.getD 2 defTree) table args with
        | .val (some a), .val (some b), .val (some c) =>
          .val (some ((powMod (ratTrunc a) (truncAbs b) (truncAbs c) : ℚ)))
        | .out, _, _ => .out
        | _, .out, _ => .out
        | _, _, .out => .out
        | _, _, _ => .val none
    | .Plus | .Minus | .Times | .Divide | .PositiveMinus | .IntegerDiv | .Exp =>
      match depth with
      | 0 => .out
      | d + 1 =>
        match reduce fuel d (arguments.getD 0 defTree) table args,
            reduce fuel d (arguments.getD 1 defTree) table args with
        | .val (some a), .val (some b) => .val (opResult tok a b)
        | .out, _ => .out
        | _, .out => .out
        | _, _ => .val none
    | _ => .val none

/-- `from_hex` from `src/calculator/strings.rs`. -/
def from_hex (hex : ℕ) : ℕ :=
  if 48 ≤ hex ∧ hex ≤ 57 then hex - 48
  else if 65 ≤ hex ∧ hex ≤ 90 then hex - 55
  else if 97 ≤ hex ∧ hex ≤ 122 then hex - 87
  else 0

/-- The escape-parsing loop of `from_string`: the input is the byte slice
between the two quotes (`string.as_bytes()[1..len-1]`), the output is the
`stack` of raw bytes.  Byte 92 is `\`; the shortcut escapes are `\n`,
`\r`, `\t`, `\\`, `\"`; any other escaped byte starts a two-digit hex
escape.  A trailing lone `\` (or `\H`) leaves the flags set and pushes
nothing, exactly as the Rust loop ends. -/
def unescape : List ℕ → List ℕ
  | [] => []
  | c :: rest =>
    if c ≠ 92 then c :: unescape rest
    else
      match rest with
      | [] => []
      | e :: rest' =>
        if e = 110 then 10 :: unescape rest'
        else if e = 114 then 13 :: unescape rest'
        else if e = 116 then 9 :: unescape rest'
        else if e = 92 then 92 :: unescape rest'
        else if e = 34 then 34 :: unescape rest'
        else
          match rest' with
          | [] => []
          | e2 :: rest'' => (from_hex e * 16 + from_hex e2) :: unescape rest''

/-- The packing loop of `from_string`: pop up to 8 bytes from the end of
`stack` into `partial` (`partial <<= 8; partial += ch`), then
`num <<= 8 * count; num += partial`, until the stack is empty.  Here the
byte stack is presented already reversed (`revStack`), so popping from the
Rust vector's end is taking from the front; the extra `Nat` is fuel (the
list length always suffices). -/
def packNum : Nat → ℕ → List ℕ → ℕ
  | 0, num, _ => num
  | _ + 1, num, [] => num
  | fuel + 1, num, x :: t =>
    packNum fuel
      (num * 2 ^ (8 * ((x :: t).take 8).length)
        + ((x :: t).take 8).foldl (fun p c => p * 256 + c) 0)
      ((x :: t).drop 8)

/-- `from_string` on the byte content of a string literal (without the
surrounding quotes): unescape, then pack the bytes into a big natural,
returned as a rational. -/
def from_string (content : List ℕ) : ℚ :=
  ((packNum (unescape content).length 0 (unescape content).reverse : ℕ) : ℚ)

/-- One buffer refill of the `Stringer` iterator
(`src/calculator/strings.rs`): `divmod` by `2^64` and emit the eight bytes
of the remainder least-significant first. -/
def chunkBytes (r : ℕ) : List ℕ :=
  (List.range 8).map (fun j => r / 2 ^ (8 * j) % 256)

/-- The byte stream produced by `Stringer::from(num).collect()`: while the
number is nonzero, emit the eight bytes of `num % 2^64` and continue with
`num / 2^64`.  The extra `Nat` is fuel (`num` itself always suffices,
since the quotient strictly decreases). -/
def stringerAux : Nat → ℕ → List ℕ
  | 0, _ => []
  | fuel + 1, num =>
    if num = 0 then []
    else chunkBytes (num % 2 ^ 64) ++ stringerAux fuel (num / 2 ^ 64)

/-- `Stringer::from(num).collect::<Vec<u8>>()` for `num : ℤ` (the iterator
starts from `num.abs()`). -/
def stringerBytes (num : ℤ) : List ℕ :=
  stringerAux num.natAbs num.natAbs

/-- The byte vector written by the `Format` branch of `analyze` for the
numerator of the (normalized) computed rational. -/
def formatBytes (q : ℚ) : List ℕ :=
  stringerBytes q.num

/-- `Calculator`: the working stack (top at the end of the list, like the
Rust `Vec`) and the symbol table. -/
structure Calc where
  stack : List Token
  table : Table

/-- Unwrap one bounded evaluator run for the dispatcher: the dispatcher
only observes `Option<Rational>`.  `.out` (resources exhausted: in Rust the
evaluation would still be running) is conflated with a failed evaluation;
no claim below depends on the dispatcher's behaviour past that point. -/
def rresToOpt : RRes → Option ℚ
  | .out => none
  | .val r => r

/-- `Calculator::compute`: clip one expression off the top of the stack;
empty expression means failure; otherwise build the tree and reduce it with
empty argument vector.  Result: (computed value, remaining stack,
diagnostics); `none` is a panic. -/
def compute (fuel : Nat) (stack : List Token) (table : Table) :
    Option (Option ℚ × List Token × List String) :=
  match clip_head stack table with
  | none => none
  | some (expression, rest, ds) =>
    if expression.length = 0 then some (none, rest, ds)
    else
      match parse_tree table expression with
      | none => none
      | some tree => some (rresToOpt (reduce fuel fuel tree table []), rest, ds)

/-- The collection loop of `Calculator::compute_all`: repeatedly clip
expressions from the top while the stack is nonempty, stopping after the
first incomplete extraction (which contributes a `none` result).  The
trees are collected first and reduced afterwards, exactly as in Rust; the
`Nat` is loop fuel (the stack length suffices, since every successful clip
removes at least one token). -/
def compute_all_aux (table : Table) : Nat → List Token → Option (List (Option ExecTree) × List Token × List String)
  | 0, stack => some ([], stack, [])
  | fuel + 1, stack =>
    if stack.length = 0 then some ([], stack, [])
    else
      match clip_head stack table with
      | none => none
      | some (expression, rest, ds) =>
        if expression.length = 0 then some ([none], rest, ds)
        else
          match parse_tree table expression with
          | none => none
          | some tree =>
            match compute_all_aux table fuel rest with
            | none => none
            | some (trees, rest', ds') => some (some tree :: trees, rest', ds ++ ds')

/-- `Calculator::compute_all`: collect, then reduce every collected tree
(`none` placeholders stay `none`). -/
def compute_all (fuel : Nat) (stack : List Token) (table : Table) :
    Option (List (Option ℚ) × List Token × List String) :=
  match compute_all_aux table stack.length stack with
  | none => none
  | some (trees, rest, ds) =>
    some (trees.map (fun tr =>
      match tr with
      | none => none
      | some tree => rresToOpt (reduce fuel fuel tree table [])), rest, ds)

/-- The loop of the `Drop` branch of `analyze`: pop tokens (from the end of
the stack, presented here as the head of the reversed stack) while
`to_drop > 0`, adding each popped token's operand count; an empty stack
ends the loop silently.  `none` is the corrupted-stack panic. -/
def drop_aux (table : Table) : Nat → List Token → Option (List Token)
  | 0, revStack => some revStack
  | _ + 1, [] => some []
  | tc + 1, t :: revStack =>
    match buildArity table t with
    | none => none
    | some a => drop_aux table (tc + a) revStack

/-- The extraction loop of the `AssignIterative` branch: run
`extract_function` `arity + 2` times, each time from the previous split
index, collecting the split indices in discovery order (top expression
first); stop at the first failure, which prints
`Incomplete function declaration`.  Returns (indices, diagnostics). -/
def collect_indices (fname : String) (farity : Nat) (table : Table)
    (stack : List Token) : Nat → Nat → Option (List Nat × List String)
  | 0, _ => some ([], [])
  | count + 1, index =>
    match extract_function fname farity table stack index with
    | none => none
    | some .NotFound => some ([], [incompleteFunMsg])
    | some (.FoundAt splitIndex) =>
      match collect_indices fname farity table stack count splitIndex with
      | none => none
      | some (indices, ds) => some (splitIndex :: indices, ds)

/-- The splitting loop of the `AssignIterative` branch:
`for index in indices { expressions.push(self.stack.split_off(index)) }`.
Returns the slices in discovery order and the remaining stack. -/
def split_indices (stack : List Token) : List Nat → List (List Token) × List Token
  | [] => ([], stack)
  | index :: rest =>
    let slice := stack.drop index
    let (slices, remaining) := split_indices (stack.take index) rest
    (slice :: slices, remaining)

/-- Build all extracted slices with `parse_tree`; `none` if any build
panics. -/
def build_all (table : Table) : List (List Token) → Option (List ExecTree)
  | [] => some []
  | slice :: rest =>
    match parse_tree table slice with
    | none => none
    | some tree =>
      match build_all table rest with
      | none => none
      | some trees => some (tree :: trees)

/-- The sentinel installed under a name being defined so that the tree
builder resolves self-calls at the declared arity:
`Function(arity, Number(0))`. -/
def sentinel (arity : Nat) : Object :=
  .Function arity (.mk (.Number 0) [])

/-- `Calculator::analyze`: react to one token.  The result is the new
calculator state together with the diagnostics printed on stderr; `none`
is a panic inside the dispatcher.  Values printed on stdout (results,
`Print` output, `Format` bytes) do not affect state and are not recorded.
`fuel` bounds the embedded evaluator runs. -/
def analyze (fuel : Nat) (c : Calc) : Token → Option (Calc × List String)
  | .Error => some (c, [droppedTokenMsg])
  | .Return =>
    match compute fuel c.stack c.table with
    | none => none
    | some (some _, rest, ds) => some (⟨rest, c.table⟩, ds)
    | some (none, rest, ds) => some (⟨rest, c.table⟩, ds ++ [incompleteMsg])
  | .Format =>
    match compute fuel c.stack c.table with
    | none => none
    | some (some _, rest, ds) => some (⟨rest, c.table⟩, ds)
    | some (none, rest, ds) => some (⟨rest, c.table⟩, ds ++ [incompleteMsg])
  | .Approx =>
    match compute fuel c.stack c.table with
    | none => none
    | some (some _, rest, ds) => some (⟨rest, c.table⟩, ds)
    | some (none, rest, ds) => some (⟨rest, c.table⟩, ds ++ [incompleteMsg])
  | .Partial =>
    match compute fuel c.stack c.table with
    | none => none
    | some (some num, rest, ds) => some (⟨rest ++ [.Number num], c.table⟩, ds)
    | some (none, rest, ds) => some (⟨rest, c.table⟩, ds ++ [incompleteMsg])
  | .Duplicate =>
    match compute fuel c.stack c.table with
    | none => none
    | some (some num, rest, ds) =>
      some (⟨rest ++ [.Number num, .Number num], c.table⟩, ds)
    | some (none, rest, ds) =>
      some (⟨rest, c.table⟩, ds ++ [incompleteDroppedMsg])
  | .Flush =>
    match compute_all fuel c.stack c.table with
    | none => none
    | some (results, rest, ds) =>
      some (⟨rest, c.table⟩,
        ds ++ results.filterMap (fun r =>
          match r with
          | none => some incompleteMsg
          | some _ => none))
  | .Print => some (c, [])
  | .Empty => some (⟨[], c.table⟩, [])
  | .AssignVariable name =>
    match compute fuel c.stack c.table with
    | none => none
    | some (some val, rest, ds) =>
      some (⟨rest, insertT c.table name (.Variable val)⟩, ds)
    | some (none, rest, ds) =>
      some (⟨rest, c.table⟩, ds ++ [incompleteDroppedMsg])
  | .AssignFunction name arity =>
    match extract_function name arity c.table c.stack c.stack.length with
    | none => none
    | some .NotFound => some (c, [incompleteFunMsg])
    | some (.FoundAt index) =>
      let table₁ := insertT c.table name (sentinel arity)
      match parse_tree table₁ (c.stack.drop index) with
      | none => none
      | some tree =>
        some (⟨c.stack.take index, insertT table₁ name (.Function arity tree)⟩, [])
  | .AssignIterative name arity =>
    match collect_indices name arity c.table c.stack (arity + 2) c.stack.length with
    | none => none
    | some (indices, ds) =>
      let old := lookupT c.table name
      let table₁ := insertT c.table name (sentinel arity)
      if arity + 2 = indices.length then
        let (slices, remaining) := split_indices c.stack indices
        match build_all table₁ slices with
        | none => none
        | some trees =>
          let rexps := trees.reverse
          let condition := rexps.getD (arity + 1) defTree
          let last := rexps.getD arity defTree
          let updates := rexps.take arity
          some (⟨remaining, insertT table₁ name (.Iterative arity updates last condition)⟩, ds)
      else
        match old with
        | some object => some (⟨c.stack, insertT table₁ name object⟩, ds)
        | none => some (⟨c.stack, table₁⟩, ds)
  | .Drop =>
    match drop_aux c.table 1 c.stack.reverse with
    | none => none
    | some revStack => some (⟨revStack.reverse, c.table⟩, [])
  | t => some (⟨c.stack ++ [t], c.table⟩, [])

/-- `Calculator::parse` without the lexer: feed a list of tokens through
`analyze`, accumulating diagnostics; `none` if any step panics. -/
def process_tokens (fuel : Nat) : Calc → List Token → Option (Calc × List String)
  | c, [] => some (c, [])
  | c, t :: rest =>
    match analyze fuel c t with
    | none => none
    | some (c', ds) =>
      match process_tokens fuel c' rest with
      | none => none
      | some (c'', ds') => some (c'', ds ++ ds')

/-! ### Byte/value views of the string codec -/

/-- Value of a byte string read with the *leftmost byte least significant*
(little-endian): `Σ bᵢ · 256^i`. -/
def littleEndianVal (l : List ℕ) : ℕ :=
  l.foldr (fun b acc => b + 256 * acc) 0

/-- Value of a byte string read with the *leftmost byte most significant*,
`Σ bᵢ · 256^(k−1−i)` — the formula the specification states for string
literals.  Stated from the spec's words, for comparison with
`from_string`. -/
def bigEndianVal (l : List ℕ) : ℕ :=
  l.foldl (fun acc b => acc * 256 + b) 0

theorem littleEndianVal_nil : littleEndianVal [] = 0 := rfl

theorem littleEndianVal_cons (b : ℕ) (t : List ℕ) :
    littleEndianVal (b :: t) = b + 256 * littleEndianVal t := rfl

theorem bigEndianVal_aux (l : List ℕ) :
    ∀ acc : ℕ, l.foldl (fun acc b => acc * 256 + b) acc
      = acc * 256 ^ l.length + bigEndianVal l := by
  induction l with
  | nil => intro acc; simp [bigEndianVal]
  | cons b t ih =>
    intro acc
    simp only [List.foldl_cons, List.length_cons, bigEndianVal, Nat.zero_mul, Nat.zero_add]
    rw [ih (acc * 256 + b), ih b]
    ring

theorem bigEndianVal_append (a b : List ℕ) :
    bigEndianVal (a ++ b) = bigEndianVal a * 256 ^ b.length + bigEndianVal b := by
  unfold bigEndianVal
  rw [List.foldl_append, bigEndianVal_aux]
  rfl

theorem bigEndianVal_reverse (l : List ℕ) :
    bigEndianVal l.reverse = littleEndianVal l := by
  induction l with
  | nil => rfl
  | cons b t ih =>
    simp only [List.reverse_cons, littleEndianVal_cons, bigEndianVal_append, ← ih]
    simp [bigEndianVal]
    ring

theorem packNum_eq (fuel : Nat) : ∀ (l : List ℕ) (num : ℕ), l.length ≤ fuel →
    packNum fuel num l = num * 256 ^ l.length + bigEndianVal l := by
  induction fuel with
  | zero =>
    intro l num h
    have : l = [] := List.eq_nil_of_length_eq_zero (Nat.le_zero.mp h)
    subst this
    simp [packNum, bigEndianVal]
  | succ n ih =>
    intro l num h
    match l with
    | [] => simp [packNum, bigEndianVal]
    | x :: t =>
      show packNum (n + 1) num (x :: t) = _
      rw [packNum]
      have hlen : ((x :: t).drop 8).length ≤ n := by
        simp only [List.length_drop, List.length_cons] at h ⊢
        omega
      rw [ih _ _ hlen]
      have h2 : (2 : ℕ) ^ (8 * ((x :: t).take 8).length) = 256 ^ ((x :: t).take 8).length := by
        rw [pow_mul]
        norm_num
      have hfold : ((x :: t).take 8).foldl (fun p c => p * 256 + c) 0
          = bigEndianVal ((x :: t).take 8) := rfl
      conv_rhs => rw [← List.take_append_drop 8 (x :: t)]
      rw [bigEndianVal_append, List.length_append, pow_add, h2, hfold]
      ring

theorem from_string_eq_littleEndian (content : List ℕ) :
    from_string content = ((littleEndianVal (unescape content) : ℕ) : ℚ) := by
  unfold from_string
  rw [packNum_eq _ _ _ (by simp), bigEndianVal_reverse]
  simp

/-! ### Stringer: the byte stream of `Format` -/

theorem littleEndianVal_lt (l : List ℕ) (h : ∀ b ∈ l, b < 256) :
    littleEndianVal l < 256 ^ l.length := by
  induction l with
  | nil => simp [littleEndianVal]
  | cons b t ih =>
    have hb : b < 256 := h b (by simp)
    have ht : littleEndianVal t < 256 ^ t.length := ih (fun x hx => h x (by simp [hx]))
    simp only [littleEndianVal_cons, List.length_cons, pow_succ]
    calc b + 256 * littleEndianVal t < 256 + 256 * littleEndianVal t := by omega
    _ = 256 * (littleEndianVal t + 1) := by ring
    _ ≤ 256 * 256 ^ t.length := by
        exact Nat.mul_le_mul_left 256 (by omega)
    _ = 256 ^ t.length * 256 := by ring

theorem littleEndianVal_take_drop (l : List ℕ) (k : ℕ) :
    littleEndianVal l
      = littleEndianVal (l.take k) + 256 ^ (l.take k).length * littleEndianVal (l.drop k) := by
  induction l generalizing k with
  | nil => simp [littleEndianVal]
  | cons b t ih =>
    match k with
    | 0 => simp [littleEndianVal]
    | k + 1 =>
      simp only [List.take_succ_cons, List.drop_succ_cons, littleEndianVal_cons,
        List.length_cons, pow_succ]
      rw [ih k]
      ring

theorem littleEndianVal_take8_lt (s : List ℕ) (h : ∀ b ∈ s, b < 256) :
    littleEndianVal (s.take 8) < 2 ^ 64 := by
  have h8 : (s.take 8).length ≤ 8 := by simp
  calc littleEndianVal (s.take 8) < 256 ^ (s.take 8).length :=
        littleEndianVal_lt (s.take 8) (fun b hb => h b (List.mem_of_mem_take hb))
  _ ≤ 256 ^ 8 := Nat.pow_le_pow_right (by omega) h8
  _ = 2 ^ 64 := by norm_num

theorem littleEndianVal_mod (s : List ℕ) (h : ∀ b ∈ s, b < 256) :
    littleEndianVal s % 2 ^ 64 = littleEndianVal (s.take 8) := by
  have hlt := littleEndianVal_take8_lt s h
  conv_lhs => rw [littleEndianVal_take_drop s 8]
  rcases le_or_lt s.length 8 with hle | hgt
  · rw [List.drop_of_length_le hle, littleEndianVal_nil, Nat.mul_zero, Nat.add_zero]
    exact Nat.mod_eq_of_lt hlt
  · have hlen : (s.take 8).length = 8 := by
      rw [List.length_take]
      omega
    rw [hlen, show (256 : ℕ) ^ 8 = 2 ^ 64 by norm_num, Nat.add_mul_mod_self_left]
    exact Nat.mod_eq_of_lt hlt

theorem littleEndianVal_div (s : List ℕ) (h : ∀ b ∈ s, b < 256) :
    littleEndianVal s / 2 ^ 64 = littleEndianVal (s.drop 8) := by
  have hlt := littleEndianVal_take8_lt s h
  conv_lhs => rw [littleEndianVal_take_drop s 8]
  rcases le_or_lt s.length 8 with hle | hgt
  · rw [List.drop_of_length_le hle, littleEndianVal_nil, Nat.mul_zero, Nat.add_zero,
      Nat.div_eq_of_lt hlt]
  · have hlen : (s.take 8).length = 8 := by
      rw [List.length_take]
      omega
    rw [hlen, show (256 : ℕ) ^ 8 = 2 ^ 64 by norm_num,
      Nat.add_mul_div_left _ _ (by norm_num : (0:ℕ) < 2 ^ 64), Nat.div_eq_of_lt hlt]
    omega

theorem littleEndianVal_digit (l : List ℕ) (h : ∀ b ∈ l, b < 256) :
    ∀ j, littleEndianVal l / 256 ^ j % 256 = l.getD j 0 := by
  induction l with
  | nil => intro j; simp [littleEndianVal]
  | cons b t ih =>
    intro j
    have hb : b < 256 := h b (by simp)
    match j with
    | 0 =>
      simp only [littleEndianVal_cons, pow_zero, Nat.div_one, List.getD_cons_zero]
      rw [Nat.add_mul_mod_self_left, Nat.mod_eq_of_lt hb]
    | j + 1 =>
      simp only [littleEndianVal_cons, List.getD_cons_succ, pow_succ]
      rw [show (256 : ℕ) ^ j * 256 = 256 * 256 ^ j by ring, ← Nat.div_div_eq_div_mul,
        Nat.add_mul_div_left _ _ (by norm_num : (0:ℕ) < 256), Nat.div_eq_of_lt hb]
      simpa using ih (fun x hx => h x (by simp [hx])) j

theorem getD_range_map (l : List ℕ) : ∀ n, l.length ≤ n →
    (List.range n).map (fun j => l.getD j 0) = l ++ List.replicate (n - l.length) 0 := by
  induction l with
  | nil =>
    intro n _
    have hconst : (fun j => ([] : List ℕ).getD j 0) = fun _ => 0 := by
      funext j
      simp [List.getD]
    rw [hconst]
    simp [List.map_const', List.eq_replicate_iff]
  | cons b t ih =>
    intro n hn
    match n with
    | m + 1 =>
      simp only [List.length_cons] at hn
      rw [List.range_succ_eq_map]
      simp only [List.map_cons, List.map_map, List.getD_cons_zero, List.cons_append,
        List.length_cons]
      congr 1
      have hcomp : ((fun j => (b :: t).getD j 0) ∘ Nat.succ) = fun j => t.getD j 0 := by
        funext j
        simp [Function.comp]
      rw [hcomp, ih m (by omega)]
      have hcount : m - t.length = m + 1 - (t.length + 1) := by omega
      rw [hcount]

theorem chunkBytes_eq (c : List ℕ) (hlen : c.length ≤ 8) (h : ∀ b ∈ c, b < 256) :
    chunkBytes (littleEndianVal c) = c ++ List.replicate (8 - c.length) 0 := by
  unfold chunkBytes
  have : ∀ j, littleEndianVal c / 2 ^ (8 * j) % 256 = c.getD j 0 := by
    intro j
    rw [show (2:ℕ) ^ (8 * j) = 256 ^ j by rw [pow_mul]; norm_num]
    exact littleEndianVal_digit c h j
  rw [List.map_congr_left (fun j _ => this j)]
  exact getD_range_map c 8 hlen

theorem littleEndianVal_pos (s : List ℕ) (hne : s ≠ []) (h0 : ∀ b ∈ s, b ≠ 0) :
    0 < littleEndianVal s := by
  match s with
  | b :: t =>
    have : b ≠ 0 := h0 b (by simp)
    simp only [littleEndianVal_cons]
    omega

theorem stringerAux_zero (fuel : Nat) : stringerAux fuel 0 = [] := by
  match fuel with
  | 0 => rfl
  | _ + 1 => simp [stringerAux]

theorem stringerAux_of_leVal (fuel : Nat) : ∀ s : List ℕ, littleEndianVal s ≤ fuel →
    (∀ b ∈ s, b < 256) → (∀ b ∈ s, b ≠ 0) →
    ∃ z ≤ 7, stringerAux fuel (littleEndianVal s) = s ++ List.replicate z 0 := by
  induction fuel with
  | zero =>
    intro s hf hb h0
    match s with
    | [] => exact ⟨0, by omega, by simp [stringerAux, littleEndianVal]⟩
    | b :: t =>
      have := littleEndianVal_pos (b :: t) (by simp) h0
      omega
  | succ n ih =>
    intro s hf hb h0
    match s with
    | [] => exact ⟨0, by omega, by simp [stringerAux, littleEndianVal]⟩
    | b :: t =>
      have hpos := littleEndianVal_pos (b :: t) (by simp) h0
      rw [stringerAux, if_neg (by omega)]
      rw [littleEndianVal_mod _ hb, littleEndianVal_div _ hb]
      rcases le_or_lt (b :: t).length 8 with hle | hgt
      · rw [List.take_of_length_le hle, List.drop_of_length_le hle, littleEndianVal_nil,
          stringerAux_zero, chunkBytes_eq _ hle hb]
        exact ⟨8 - (b :: t).length, by simp, by simp⟩
      · have hdb : ∀ x ∈ (b :: t).drop 8, x < 256 := fun x hx => hb x (List.mem_of_mem_drop hx)
        have hd0 : ∀ x ∈ (b :: t).drop 8, x ≠ 0 := fun x hx => h0 x (List.mem_of_mem_drop hx)
        have hdf : littleEndianVal ((b :: t).drop 8) ≤ n := by
          have hdiv := littleEndianVal_div (b :: t) hb
          have : littleEndianVal (b :: t) / 2 ^ 64 < littleEndianVal (b :: t) :=
            Nat.div_lt_self hpos (by norm_num)
          omega
        obtain ⟨z, hz, heq⟩ := ih ((b :: t).drop 8) hdf hdb hd0
        rw [heq]
        have htake : ((b :: t).take 8).length = 8 := by
          rw [List.length_take]
          omega
        rw [chunkBytes_eq _ (by omega) (fun x hx => hb x (List.mem_of_mem_take hx)), htake]
        refine ⟨z, hz, ?_⟩
        rw [Nat.sub_self, List.replicate_zero, List.append_nil, ← List.append_assoc,
          List.take_append_drop]

theorem unescape_of_no_backslash (l : List ℕ) (h : ∀ b ∈ l, b ≠ 92) : unescape l = l := by
  induction l with
  | nil => rfl
  | cons c rest ih =>
    have hc : c ≠ 92 := h c (by simp)
    rw [unescape.eq_def]
    simp only [hc, ne_eq, not_false_eq_true, if_true]
    rw [ih (fun b hb => h b (by simp [hb]))]

theorem littleEndianVal_eq_sum (l : List ℕ) :
    littleEndianVal l = ∑ i ∈ Finset.range l.length, l.getD i 0 * 256 ^ i := by
  induction l with
  | nil => simp [littleEndianVal]
  | cons b t ih =>
    rw [littleEndianVal_cons, ih]
    rw [List.length_cons, Finset.sum_range_succ']
    simp only [List.getD_cons_succ, List.getD_cons_zero, pow_zero, mul_one]
    rw [Finset.mul_sum, add_comm]
    congr 1
    apply Finset.sum_congr rfl
    intro i _
    ring

/-! ### Claim C5 (string literals are little-endian, not big-endian) -/

/-- Counterexample to C5: the literal `"ab"` (raw bytes 97, 98) evaluates to
`98·256 + 97 = 25185`, not to the spec's big-endian value
`97·256 + 98 = 24930`; the leftmost byte is the *least* significant. -/
theorem claim_C5_counterexample :
    from_string [97, 98] = ((25185 : ℕ) : ℚ)
      ∧ bigEndianVal [97, 98] = 24930
      ∧ from_string [97, 98] ≠ ((bigEndianVal [97, 98] : ℕ) : ℚ) := by
  refine ⟨by decide, by decide, by decide⟩

/-- C5 (amended): for every string literal, letting `b₀ … b_{k−1}` be the raw
bytes after unescaping in source order, the value of the resulting `Number`
token is `Σ bᵢ · 256^i` — the *leftmost* byte is the *least* significant
byte (the code's own debug comment `2645608968345021733469237830984 hello
world` decodes this way). -/
theorem claim_C5 (content : List ℕ) :
    from_string content
      = ((∑ i ∈ Finset.range (unescape content).length,
          (unescape content).getD i 0 * 256 ^ i : ℕ) : ℚ) := by
  rw [from_string_eq_littleEndian, littleEndianVal_eq_sum]

/-! ### Claim C6 (round-trip of string literals through Format) -/

/-- C6: for a byte string `s` with no NUL bytes and no bytes that would need
escaping (`"` and `\`), evaluating the literal `"s"` and formatting the
result writes exactly `s` followed by at most 7 NUL bytes. -/
theorem claim_C6 (s : List ℕ) (hrange : ∀ b ∈ s, b < 256) (hnul : ∀ b ∈ s, b ≠ 0)
    (hesc : ∀ b ∈ s, b ≠ 34 ∧ b ≠ 92) :
    ∃ z ≤ 7, formatBytes (from_string s) = s ++ List.replicate z 0 := by
  have hu : unescape s = s := unescape_of_no_backslash s (fun b hb => (hesc b hb).2)
  have hv : from_string s = ((littleEndianVal s : ℕ) : ℚ) := by
    rw [from_string_eq_littleEndian, hu]
  rw [hv]
  have hnum : (((littleEndianVal s : ℕ) : ℚ)).num = (littleEndianVal s : ℤ) := by
    exact_mod_cast Rat.num_natCast (littleEndianVal s)
  unfold formatBytes stringerBytes
  rw [hnum]
  simp only [Int.natAbs_ofNat]
  exact stringerAux_of_leVal (littleEndianVal s) s le_rfl hrange hnul

/-- Witness for C6 at `s = "hi"` (bytes 104, 105): the formatted output is
`hi` followed by six NULs. -/
theorem claim_C6_witness :
    ∃ z ≤ 7, formatBytes (from_string [104, 105]) = [104, 105] ++ List.replicate z 0 :=
  claim_C6 [104, 105] (by decide) (by decide) (by decide)

/-! ### Claim C7 (IntegerDiv truncates towards zero, it does not floor) -/

/-- Counterexample to C7: `-1 \ 2` evaluates to `0` (ramp's integer division
rounds towards zero), while the floor of `-1/2` is `-1`. -/
theorem claim_C7_counterexample :
    reduce 2 2 (.mk .IntegerDiv [.mk (.Number (-1)) [], .mk (.Number 2) []]) [] []
        = .val (some 0)
      ∧ Rat.floor ((-1 : ℚ) / 2) = -1
      ∧ (0 : ℚ) ≠ ((-1 : ℤ) : ℚ) := by
  refine ⟨?_, ?_, by norm_num⟩
  · have htr : ratTrunc ((-1 : ℚ) / 2) = 0 := by
      unfold ratTrunc
      norm_num
      decide
    simp only [reduce, List.getD_cons_zero, List.getD_cons_succ, opResult]
    rw [if_neg (by norm_num : ¬(2 : ℚ) = 0), htr]
    norm_num
  · rw [Rat.floor_def']
    norm_num

/-- C7 (amended): for rationals `a` and `b` with `b ≠ 0`, the `IntegerDiv`
(`\`) operator returns the quotient `a / b` rounded *towards zero* as an
integer-valued rational; this agrees with the floor exactly when the
quotient is nonnegative (or integral). -/
theorem claim_C7 (a b : ℚ) (hb : b ≠ 0) (fuel depth : Nat) (table : Table)
    (args : List (Option ℚ)) :
    reduce (fuel + 2) (depth + 1)
        (.mk .IntegerDiv [.mk (.Number a) [], .mk (.Number b) []]) table args
        = .val (some ((ratTrunc (a / b) : ℤ) : ℚ))
      ∧ (0 ≤ a / b → ratTrunc (a / b) = Rat.floor (a / b)) := by
  constructor
  · simp only [reduce, List.getD_cons_zero, List.getD_cons_succ, opResult, if_neg hb]
  · intro hq
    unfold ratTrunc
    rw [Rat.floor_def']
    exact Int.tdiv_eq_ediv (Rat.num_nonneg.mpr hq) (Int.natCast_nonneg _)

/-! ### Step lemmas for `reduce` -/

/-- An `Argument` leaf. -/
def argT (i : Nat) : ExecTree := .mk (.Argument i) []

/-- A `Number` leaf. -/
def numT (q : ℚ) : ExecTree := .mk (.Number q) []

theorem reduce_argT_step (fuel depth : Nat) (i : Nat) (table : Table)
    (args : List (Option ℚ)) :
    reduce (fuel + 1) depth (argT i) table args = .val (args.getD i none) := by
  simp [reduce, argT]

theorem reduce_numT_step (fuel depth : Nat) (q : ℚ) (table : Table)
    (args : List (Option ℚ)) :
    reduce (fuel + 1) depth (numT q) table args = .val (some q) := by
  simp [reduce, numT]

theorem reduce_if_step (fuel depth : Nat) (t e c : ExecTree) (table : Table)
    (args : List (Option ℚ)) (cv : ℚ)
    (hc : reduce fuel depth c table args = .val (some cv)) :
    reduce (fuel + 1) (depth + 1) (.mk .If [t, e, c]) table args
      = reduce fuel (depth + 1) (if cv = 0 then e else t) table args := by
  simp only [reduce, List.getD_cons_zero, List.getD_cons_succ, hc]
  by_cases hcv : cv = 0 <;> simp [hcv]

theorem reduce_plus_step (fuel depth : Nat) (t1 t2 : ExecTree) (table : Table)
    (args : List (Option ℚ)) (x y : ℚ)
    (h1 : reduce fuel depth t1 table args = .val (some x))
    (h2 : reduce fuel depth t2 table args = .val (some y)) :
    reduce (fuel + 1) (depth + 1) (.mk .Plus [t1, t2]) table args
      = .val (some (x + y)) := by
  simp only [reduce, List.getD_cons_zero, List.getD_cons_succ, h1, h2, opResult]

theorem reduce_pminus_step (fuel depth : Nat) (t1 t2 : ExecTree) (table : Table)
    (args : List (Option ℚ)) (x y : ℚ)
    (h1 : reduce fuel depth t1 table args = .val (some x))
    (h2 : reduce fuel depth t2 table args = .val (some y)) :
    reduce (fuel + 1) (depth + 1) (.mk .PositiveMinus [t1, t2]) table args
      = .val (opResult .PositiveMinus x y) := by
  simp only [reduce, List.getD_cons_zero, List.getD_cons_succ, h1, h2]

theorem reduce_call_step (fuel depth : Nat) (name : String) (ar : Nat)
    (ops : ExecTree) (argTrees : List ExecTree) (table : Table)
    (args funcArgs : List (Option ℚ))
    (hlook : lookupT table name = some (.Function ar ops))
    (hlen : argTrees.length = ar)
    (hargs : collectVals (argTrees.map (fun a => reduce fuel depth a table args))
      = some funcArgs)
    (hnone : funcArgs.any (fun a => a.isNone) = false) :
    reduce (fuel + 1) (depth + 1) (.mk (.Identifier name) argTrees) table args
      = reduce fuel (depth + 1) ops table funcArgs := by
  simp only [reduce, hlook, hlen, ne_eq, not_true_eq_false, if_false, hargs, hnone,
    Bool.false_eq_true]

/-! ### Claim C2 (If stores children as then/else/cond and short-circuits) -/

/-- C2: an `If` node stores its children in the order `[then, else, cond]`;
`reduce` first evaluates the `cond` child, then continues (as a tail step)
with only the `else` child when the condition is zero and only the `then`
child otherwise.  Consequently the non-taken arm can be replaced by *any*
tree — undefined names, division by zero — without changing the result. -/
theorem claim_C2 (fuel depth : Nat) (t e c : ExecTree) (table : Table)
    (args : List (Option ℚ)) (cv : ℚ)
    (hc : reduce fuel depth c table args = .val (some cv)) :
    (reduce (fuel + 1) (depth + 1) (.mk .If [t, e, c]) table args
        = reduce fuel (depth + 1) (if cv = 0 then e else t) table args)
    ∧ (cv ≠ 0 → ∀ e' : ExecTree,
        reduce (fuel + 1) (depth + 1) (.mk .If [t, e', c]) table args
          = reduce fuel (depth + 1) t table args)
    ∧ (cv = 0 → ∀ t' : ExecTree,
        reduce (fuel + 1) (depth + 1) (.mk .If [t', e, c]) table args
          = reduce fuel (depth + 1) e table args) := by
  refine ⟨?_, ?_, ?_⟩
  · simp only [reduce, List.getD_cons_zero, List.getD_cons_succ, hc]
    by_cases hcv : cv = 0 <;> simp [hcv]
  · intro hcv e'
    simp only [reduce, List.getD_cons_zero, List.getD_cons_succ, hc]
    simp [hcv]
  · intro hcv t'
    subst hcv
    simp only [reduce, List.getD_cons_zero, List.getD_cons_succ, hc]
    simp

/-- Witness for C2: `? `-node with condition 1 selects the then-arm 5, even
though the else-arm divides by zero. -/
theorem claim_C2_witness :
    reduce (1 + 1) (1 + 1)
        (.mk .If [.mk (.Number 5) [],
          .mk .Divide [.mk (.Number 1) [], .mk (.Number 0) []],
          .mk (.Number 1) []]) [] []
      = .val (some 5) := by
  have h := (claim_C2 1 1 (.mk (.Number 5) [])
    (.mk .Divide [.mk (.Number 1) [], .mk (.Number 0) []])
    (.mk (.Number 1) []) [] [] 1 (by decide)).1
  rw [h, if_neg one_ne_zero]
  decide

/-! ### Claim C3 (a failing Iterative condition does not fail the call) -/

/-- Counterexample to C3: calling an `Iterative` whose condition divides by
zero (so the condition reduces to `None` at the very first iteration) does
*not* make the call fail: the update loop stops and the finalizer (here the
constant 42) is evaluated, because the post-loop check only inspects the
argument slots, not the condition's failure. -/
theorem claim_C3_counterexample :
    reduce 9 9 (.mk (.Identifier "it") [.mk (.Number 5) []])
        [("it", .Iterative 1 [.mk (.Argument 0) []] (.mk (.Number 42) [])
          (.mk .Divide [.mk (.Number 1) [], .mk (.Number 0) []]))] []
      = .val (some 42)
    ∧ RRes.val (some 42) ≠ RRes.val none := by
  refine ⟨by decide, by decide⟩

/-- C3 (amended): when the condition of an `Iterative` call reduces to
`None` at any iteration, the update loop stops with the argument slots it
has at that point; the call then fails only if one of those slots is itself
`None` — otherwise the finalizer is evaluated on them (tail step).  The
first conjunct states this for the call as a whole when the condition fails
immediately; the second states the loop-exit for an arbitrary iteration. -/
theorem claim_C3 (fuel depth : Nat) (table : Table) (name : String) (arity : Nat)
    (exps : List ExecTree) (last cond : ExecTree) (argTrees : List ExecTree)
    (args funcArgs : List (Option ℚ))
    (hlook : lookupT table name = some (.Iterative arity exps last cond))
    (hlen : argTrees.length = arity)
    (hargs : collectVals (argTrees.map (fun a => reduce fuel depth a table args))
      = some funcArgs)
    (hcond : reduce fuel depth cond table funcArgs = .val none)
    (hnone : funcArgs.any (fun a => a.isNone) = false) :
    (reduce (fuel + 1) (depth + 1) (.mk (.Identifier name) argTrees) table args
        = reduce fuel (depth + 1) last table funcArgs)
    ∧ (∀ (n : Nat) (fa : List (Option ℚ)),
        run_function (fun tr a => reduce fuel depth tr table a) cond fa = .val none →
        iterLoop (fun tr a => reduce fuel depth tr table a) cond exps (n + 1) fa
          = some fa) := by
  constructor
  · have hrun : run_function (fun tr a => reduce fuel depth tr table a) cond funcArgs
        = .val none := by
      unfold run_function
      rw [hnone]
      simpa using hcond
    simp only [reduce, hlook, hlen, ne_eq, not_true_eq_false, if_false, hargs]
    rw [iterLoop, hrun]
    simp [hnone]
  · intro n fa hrun
    rw [iterLoop, hrun]

/-- Witness for the amended C3, at the counterexample's concrete input. -/
theorem claim_C3_witness :
    reduce (7 + 1) (7 + 1) (.mk (.Identifier "it") [.mk (.Number 5) []])
        [("it", .Iterative 1 [.mk (.Argument 0) []] (.mk (.Number 42) [])
          (.mk .Divide [.mk (.Number 1) [], .mk (.Number 0) []]))] []
      = reduce 7 (7 + 1) (.mk (.Number 42) [])
          [("it", .Iterative 1 [.mk (.Argument 0) []] (.mk (.Number 42) [])
            (.mk .Divide [.mk (.Number 1) [], .mk (.Number 0) []]))] [some 5] :=
  (claim_C3 7 7 _ "it" 1 [.mk (.Argument 0) []] (.mk (.Number 42) [])
    (.mk .Divide [.mk (.Number 1) [], .mk (.Number 0) []])
    [.mk (.Number 5) []] [] [some 5]
    (by simp [lookupT]) (by decide) (by decide) (by decide) (by decide)).1

/-- Witness for C7 at `a = 7`, `b = 2`: `7 \ 2 = 3`. -/
theorem claim_C7_witness :
    (2 : ℚ) ≠ 0
      ∧ reduce 2 1 (.mk .IntegerDiv [.mk (.Number 7) [], .mk (.Number 2) []]) [] []
          = .val (some ((ratTrunc ((7 : ℚ) / 2) : ℤ) : ℚ)) :=
  ⟨by norm_num, (claim_C7 7 2 (by norm_num) 0 0 [] []).1⟩

/-! ### Claim C4 (tail recursion runs at constant native depth)

The glossary's tail-recursive Fibonacci:
`$1 $0 $1 + $2 1 ~ fib_rec $1 $2 ? fib_rec|3  1 0 $0 fib_rec tfib|1`. -/

def fibRecName : String := "fib_rec"

def tfibName : String := "tfib"

/-- Body of `fib_rec|3`, as built by `parse_tree` from the postfix slice
`$1 $0 $1 + $2 1 ~ fib_rec $1 $2 ?`. -/
def fibRecBody : ExecTree :=
  .mk .If
    [.mk (.Identifier fibRecName)
      [argT 1, .mk .Plus [argT 0, argT 1], .mk .PositiveMinus [argT 2, numT 1]],
     argT 1, argT 2]

/-- Body of `tfib|1`: `1 0 $0 fib_rec`. -/
def tfibBody : ExecTree := .mk (.Identifier fibRecName) [numT 1, numT 0, argT 0]

/-- The table after both glossary definitions. -/
def fibTable : Table :=
  [(fibRecName, .Function 3 fibRecBody), (tfibName, .Function 1 tfibBody)]

theorem pminus_cast_succ (k : ℕ) :
    opResult .PositiveMinus ((k + 1 : ℕ) : ℚ) 1 = some ((k : ℕ) : ℚ) := by
  simp only [opResult]
  have hv : ((k + 1 : ℕ) : ℚ) - 1 = ((k : ℕ) : ℚ) := by
    push_cast
    ring
  rw [hv]
  by_cases hk : k = 0
  · subst hk
    norm_num
  · rw [if_pos (by exact_mod_cast Nat.pos_of_ne_zero hk)]

/-- One full round of `fib_rec` at native depth 3: the loop invariant of the
tail-recursive Fibonacci.  The fuel grows linearly with `k`; the depth stays
3. -/
theorem fibRec_loop (k : ℕ) : ∀ a b : ℚ,
    reduce (2 * k + 2) 3 fibRecBody fibTable [some a, some b, some ((k : ℕ) : ℚ)]
      = .val (some (a * ((Nat.fib k : ℕ) : ℚ) + b * ((Nat.fib (k + 1) : ℕ) : ℚ))) := by
  induction k with
  | zero =>
    intro a b
    have e1 : 2 * 0 + 2 = 1 + 1 := by norm_num
    rw [e1, fibRecBody,
      reduce_if_step 1 2 _ _ _ _ _ ((0 : ℕ) : ℚ)
        (by rw [reduce_argT_step]; rfl)]
    rw [if_pos (by norm_num)]
    rw [reduce_argT_step]
    simp [Nat.fib]
  | succ k ih =>
    intro a b
    have e1 : 2 * (k + 1) + 2 = (2 * k + 3) + 1 := by ring
    have e2 : 2 * k + 3 = (2 * k + 2) + 1 := by ring
    have e3 : 2 * k + 2 = (2 * k + 1) + 1 := by ring
    have e4 : 2 * k + 1 = (2 * k) + 1 := by ring
    have hknz : ((k + 1 : ℕ) : ℚ) ≠ 0 := by
      exact_mod_cast Nat.succ_ne_zero k
    have hcond : reduce (2 * k + 3) 2 (argT 2) fibTable
        [some a, some b, some ((k + 1 : ℕ) : ℚ)] = .val (some ((k + 1 : ℕ) : ℚ)) := by
      rw [e2, reduce_argT_step]
      rfl
    rw [e1, fibRecBody, reduce_if_step _ 2 _ _ _ _ _ _ hcond, if_neg hknz]
    have hc0 : reduce (2 * k + 2) 2 (argT 1) fibTable
        [some a, some b, some ((k + 1 : ℕ) : ℚ)] = .val (some b) := by
      rw [e3, reduce_argT_step]
      rfl
    have hc1 : reduce (2 * k + 2) 2 (.mk .Plus [argT 0, argT 1]) fibTable
        [some a, some b, some ((k + 1 : ℕ) : ℚ)] = .val (some (a + b)) := by
      rw [e3]
      exact reduce_plus_step (2 * k + 1) 1 _ _ _ _ a b
        (by rw [e4, reduce_argT_step]; rfl)
        (by rw [e4, reduce_argT_step]; rfl)
    have hc2 : reduce (2 * k + 2) 2 (.mk .PositiveMinus [argT 2, numT 1]) fibTable
        [some a, some b, some ((k + 1 : ℕ) : ℚ)] = .val (some ((k : ℕ) : ℚ)) := by
      rw [e3]
      rw [reduce_pminus_step (2 * k + 1) 1 _ _ _ _ ((k + 1 : ℕ) : ℚ) 1
        (by rw [e4, reduce_argT_step]; rfl)
        (by rw [e4, reduce_numT_step])]
      rw [pminus_cast_succ]
    rw [e2]
    rw [reduce_call_step (2 * k + 2) 2 fibRecName 3 fibRecBody _ fibTable _
      [some b, some (a + b), some ((k : ℕ) : ℚ)]
      (by rfl) (by rfl)
      (by rw [List.map_cons, List.map_cons, List.map_cons, List.map_nil,
        hc0, hc1, hc2]; rfl)
      (by rfl)]
    rw [ih b (a + b)]
    have hfib : (b : ℚ) * ((Nat.fib k : ℕ) : ℚ) + (a + b) * ((Nat.fib (k + 1) : ℕ) : ℚ)
        = a * ((Nat.fib (k + 1) : ℕ) : ℚ) + b * ((Nat.fib (k + 1 + 1) : ℕ) : ℚ) := by
      rw [Nat.fib_add_two]
      push_cast
      ring
    rw [hfib]

/-- C4: the evaluator executes tail self-calls (through `If` arms and
`Function` bodies) by replacing the `(token, arguments, args)` state of its
explicit loop, not by native recursion: reducing the glossary's
tail-recursive Fibonacci `tfib n` succeeds at the *constant* native-call
depth 3 for every `n`, with only the loop fuel growing with `n`.  (In the
model, `depth` is spent exactly where the Rust code makes a native recursive
call, so depth 3 for all `n` — including `n = 10⁵` — is the statement that
the process stack does not grow with the recursion count.) -/
theorem claim_C4 (n : ℕ) : ∃ fuel : Nat,
    reduce fuel 3 (.mk (.Identifier tfibName) [numT ((n : ℕ) : ℚ)]) fibTable []
      = .val (some ((Nat.fib n : ℕ) : ℚ)) := by
  refine ⟨2 * n + 4, ?_⟩
  have e1 : 2 * n + 4 = (2 * n + 3) + 1 := by ring
  have e2 : 2 * n + 3 = (2 * n + 2) + 1 := by ring
  rw [e1]
  rw [reduce_call_step (2 * n + 3) 2 tfibName 1 tfibBody _ fibTable _
    [some ((n : ℕ) : ℚ)]
    (by rfl) (by rfl)
    (by rw [List.map_cons, List.map_nil, e2, reduce_numT_step]; rfl)
    (by rfl)]
  rw [e2, tfibBody]
  rw [reduce_call_step (2 * n + 2) 2 fibRecName 3 fibRecBody _ fibTable _
    [some 1, some 0, some ((n : ℕ) : ℚ)]
    (by rfl) (by rfl)
    (by
      have e3 : 2 * n + 2 = (2 * n + 1) + 1 := by ring
      rw [List.map_cons, List.map_cons, List.map_cons, List.map_nil, e3,
        reduce_numT_step, reduce_numT_step, reduce_argT_step]
      rfl)
    (by rfl)]
  rw [fibRec_loop n 1 0]
  norm_num

/-! ### Claim C1: correctness of the expression extractor

The scan of `extract_function` is characterized by the signed cumulative
arity (`1 − operand count` per token) of the scanned slice. -/

/-- Total operand count for the weight analysis: `extArity` with the (never
reached on expression tokens) corrupted arm mapped to 0. -/
def extArityD (fname : String) (farity : Nat) (table : Table) (t : Token) : Nat :=
  (extArity fname farity table t).getD 0

/-- Signed cumulative arity of a token list: each token contributes
`1 − (operand count)`.  A complete expression has cumulative arity 1. -/
def listWeight (w : Token → Nat) (l : List Token) : ℤ :=
  (l.map (fun t => 1 - (w t : ℤ))).sum

/-- `l` is exactly one complete postfix expression for the operand-count
function `w`: cumulative arity exactly 1, and no proper suffix is already
a complete sequence of expressions (every proper suffix has cumulative
arity at most 0). -/
def isOneExpr (w : Token → Nat) (l : List Token) : Prop :=
  listWeight w l = 1 ∧ ∀ k, k < l.length → 0 < k → listWeight w (l.drop k) ≤ 0

instance isOneExprDec (w : Token → Nat) (l : List Token) : Decidable (isOneExpr w l) := by
  unfold isOneExpr
  have : Decidable (∀ k, k < l.length → 0 < k → listWeight w (l.drop k) ≤ 0) :=
    Nat.decidableBallLT l.length _
  exact instDecidableAnd

theorem listWeight_nil (w : Token → Nat) : listWeight w [] = 0 := rfl

theorem listWeight_append (w : Token → Nat) (a b : List Token) :
    listWeight w (a ++ b) = listWeight w a + listWeight w b := by
  simp [listWeight]

theorem listWeight_singleton (w : Token → Nat) (t : Token) :
    listWeight w [t] = 1 - (w t : ℤ) := by
  simp [listWeight]

/-- The slice `[j, i)` of the stack. -/
def segT (stack : List Token) (j i : Nat) : List Token :=
  (stack.take i).drop j

theorem segT_self (stack : List Token) (i : Nat) : segT stack i i = [] := by
  apply List.drop_eq_nil_of_le
  simp [List.length_take]

theorem segT_zero_len (stack : List Token) (j : Nat) : segT stack j 0 = [] := by
  simp [segT]

theorem segT_succ (stack : List Token) (j i : Nat) (hj : j ≤ i) (hi : i < stack.length) :
    segT stack j (i + 1) = segT stack j i ++ [stack.getD i .Error] := by
  unfold segT
  rw [List.take_succ]
  have hx : stack[i]? = some (stack.getD i .Error) := by
    rw [List.getElem?_eq_getElem hi]
    rw [List.getD_eq_getElem?_getD, List.getElem?_eq_getElem hi]
    rfl
  rw [hx]
  simp only [Option.toList_some]
  rw [List.drop_append_of_le_length]
  rw [List.length_take]
  omega

theorem extArity_of_expr (fname : String) (farity : Nat) (table : Table) (t : Token)
    (h : isExprToken t = true) :
    extArity fname farity table t = some (extArityD fname farity table t) := by
  cases t <;> simp_all [extArity, extArityD, isExprToken]

theorem getD_mem_of_lt (stack : List Token) (i : Nat) (hi : i < stack.length) :
    stack.getD i .Error ∈ stack := by
  rw [List.getD_eq_getElem?_getD, List.getElem?_eq_getElem hi]
  exact List.getElem_mem hi

/-- One loop step of `extract_function` on an expression token. -/
theorem ext_aux_step (fname : String) (farity : Nat) (table : Table) (stack : List Token)
    (hOK : ∀ t ∈ stack, isExprToken t = true) (i : Nat) (hi : i < stack.length) (tc : Nat) :
    extract_function_aux fname farity table stack (i + 1) (tc + 1)
      = extract_function_aux fname farity table stack i
          (tc + extArityD fname farity table (stack.getD i .Error)) := by
  have h := extArity_of_expr fname farity table _ (hOK _ (getD_mem_of_lt stack i hi))
  simp only [extract_function_aux]
  rw [h]

/-- Characterization of the scan: starting at index `i` with counter `tc`,
the scan returns `FoundAt j` exactly when the slice `[j, i)` has cumulative
arity `tc` while every strictly shorter suffix stays below `tc`, and it
returns `NotFound` exactly when every suffix of `[0, i)` stays below `tc`. -/
theorem ext_aux_char (fname : String) (farity : Nat) (table : Table) (stack : List Token)
    (hOK : ∀ t ∈ stack, isExprToken t = true) :
    ∀ i, i ≤ stack.length → ∀ tc : Nat,
      (∀ j, extract_function_aux fname farity table stack i tc = some (.FoundAt j)
        ↔ (j ≤ i ∧ listWeight (extArityD fname farity table) (segT stack j i) = (tc : ℤ)
            ∧ ∀ k, j < k → k ≤ i →
                listWeight (extArityD fname farity table) (segT stack k i) < (tc : ℤ)))
      ∧ (extract_function_aux fname farity table stack i tc = some .NotFound
        ↔ ∀ k, k ≤ i →
            listWeight (extArityD fname farity table) (segT stack k i) < (tc : ℤ)) := by
  intro i
  induction i with
  | zero =>
    intro _ tc
    constructor
    · intro j
      match tc with
      | 0 =>
        constructor
        · intro h
          simp only [extract_function_aux, Option.some.injEq, Found.FoundAt.injEq] at h
          subst h
          refine ⟨le_rfl, by rw [segT_zero_len, listWeight_nil]; rfl, ?_⟩
          intro k hk1 hk2
          omega
        · rintro ⟨hj, _, _⟩
          have : j = 0 := by omega
          subst this
          rfl
      | tc + 1 =>
        constructor
        · intro h
          simp [extract_function_aux] at h
        · rintro ⟨hj, hw, _⟩
          have : j = 0 := by omega
          subst this
          rw [segT_zero_len, listWeight_nil] at hw
          omega
    · match tc with
      | 0 =>
        constructor
        · intro h
          simp [extract_function_aux] at h
        · intro h
          have h0 := h 0 le_rfl
          rw [segT_zero_len, listWeight_nil] at h0
          omega
      | tc + 1 =>
        constructor
        · intro _ k hk
          have : k = 0 := by omega
          subst this
          rw [segT_zero_len, listWeight_nil]
          omega
        · intro _
          rfl
  | succ i ih =>
    intro hi tc
    have hi' : i < stack.length := by omega
    have ihh := ih (by omega)
    set A := extArityD fname farity table with hA
    set a := A (stack.getD i .Error) with ha
    have hshift : ∀ j, j ≤ i →
        listWeight A (segT stack j (i + 1))
          = listWeight A (segT stack j i) + (1 - (a : ℤ)) := by
      intro j hj
      rw [segT_succ stack j i hj hi', listWeight_append, listWeight_singleton]
    have hend : listWeight A (segT stack (i + 1) (i + 1)) = 0 := by
      rw [segT_self, listWeight_nil]
    match tc with
    | 0 =>
      constructor
      · intro j
        constructor
        · intro h
          simp only [extract_function_aux, Option.some.injEq, Found.FoundAt.injEq] at h
          subst h
          refine ⟨le_rfl, by rw [hend]; simp, ?_⟩
          intro k hk1 hk2
          omega
        · rintro ⟨hj, hw, hcond⟩
          rcases Nat.lt_or_ge j (i + 1) with hlt | hge
          · have := hcond (i + 1) (by omega) le_rfl
            rw [hend] at this
            omega
          · have : j = i + 1 := by omega
            subst this
            rfl
      · constructor
        · intro h
          simp [extract_function_aux] at h
        · intro h
          have h0 := h (i + 1) le_rfl
          rw [hend] at h0
          omega
    | tc + 1 =>
      rw [ext_aux_step fname farity table stack hOK i hi' tc]
      rcases ihh (tc + a) with ⟨ihf, ihn⟩
      constructor
      · intro j
        rw [ihf j]
        constructor
        · rintro ⟨hj, hw, hcond⟩
          refine ⟨by omega, ?_, ?_⟩
          · rw [hshift j hj, hw]
            push_cast
            omega
          · intro k hk1 hk2
            rcases Nat.lt_or_ge k (i + 1) with hklt | hkge
            · have := hcond k hk1 (by omega)
              rw [hshift k (by omega)]
              push_cast at this ⊢
              omega
            · have : k = i + 1 := by omega
              subst this
              rw [hend]
              push_cast
              omega
        · rintro ⟨hj, hw, hcond⟩
          have hjle : j ≤ i := by
            rcases Nat.lt_or_ge j (i + 1) with hjlt | hjge
            · omega
            · exfalso
              have : j = i + 1 := by omega
              subst this
              rw [hend] at hw
              omega
          refine ⟨hjle, ?_, ?_⟩
          · have := hshift j hjle
            push_cast at this hw ⊢
            omega
          · intro k hk1 hk2
            have := hcond k hk1 (by omega)
            have hs := hshift k (by omega)
            push_cast at this hs ⊢
            omega
      · rw [ihn]
        constructor
        · intro h k hk
          rcases Nat.lt_or_ge k (i + 1) with hklt | hkge
          · have := h k (by omega)
            have hs := hshift k (by omega)
            push_cast at this hs ⊢
            omega
          · have : k = i + 1 := by omega
            subst this
            rw [hend]
            push_cast
            omega
        · intro h k hk
          have := h k (by omega)
          have hs := hshift k (by omega)
          push_cast at this hs ⊢
          omega

/-- On a stack of expression tokens the scan never panics. -/
theorem ext_aux_total (fname : String) (farity : Nat) (table : Table) (stack : List Token)
    (hOK : ∀ t ∈ stack, isExprToken t = true) :
    ∀ i, i ≤ stack.length → ∀ tc : Nat,
      ∃ r, extract_function_aux fname farity table stack i tc = some r := by
  intro i
  induction i with
  | zero =>
    intro _ tc
    match tc with
    | 0 => exact ⟨.FoundAt 0, rfl⟩
    | tc + 1 => exact ⟨.NotFound, rfl⟩
  | succ i ih =>
    intro hi tc
    match tc with
    | 0 => exact ⟨.FoundAt (i + 1), rfl⟩
    | tc + 1 =>
      rw [ext_aux_step fname farity table stack hOK i (by omega) tc]
      exact ih (by omega) _

/-- Complete expressions occupy a unique suffix. -/
theorem isOneExpr_drop_unique (w : Token → Nat) (stack : List Token) (j j' : Nat)
    (h : isOneExpr w (stack.drop j)) (h' : isOneExpr w (stack.drop j')) : j = j' := by
  rcases h with ⟨hw, hsuf⟩
  rcases h' with ⟨hw', hsuf'⟩
  by_contra hne
  rcases Nat.lt_or_ge j j' with hlt | hge
  · rcases Nat.lt_or_ge j' (stack.length) with hl | hl
    · have hdd : (stack.drop j).drop (j' - j) = stack.drop j' := by
        rw [List.drop_drop]
        congr 1
        omega
      have := hsuf (j' - j) (by simp [List.length_drop]; omega) (by omega)
      rw [hdd, hw'] at this
      omega
    · rw [List.drop_eq_nil_of_le hl] at hw'
      simp [listWeight_nil] at hw'
  · have hlt : j' < j := by omega
    rcases Nat.lt_or_ge j (stack.length) with hl | hl
    · have hdd : (stack.drop j').drop (j - j') = stack.drop j := by
        rw [List.drop_drop]
        congr 1
        omega
      have := hsuf' (j - j') (by simp [List.length_drop]; omega) (by omega)
      rw [hdd, hw] at this
      omega
    · rw [List.drop_eq_nil_of_le hl] at hw
      simp [listWeight_nil] at hw

/-- Counterexample to C1 as literally stated: on the (reachable) stack
`3 + 4` the whole slice `[0, 3)` has cumulative arity exactly 1, yet the
extractor answers `FoundAt 2` (the slice `4`), not `FoundAt 0` — "cumulative
arity exactly 1" alone does not characterize the result; the suffix
condition (no proper suffix already complete) is also needed. -/
theorem claim_C1_counterexample :
    extract_function ("f") 0 [] [.Number 3, .Plus, .Number 4] 3 = some (.FoundAt 2)
      ∧ listWeight (extArityD ("f") 0 []) ([.Number 3, .Plus, .Number 4].drop 0) = 1
      ∧ extract_function ("f") 0 [] [.Number 3, .Plus, .Number 4] 3 ≠ some (.FoundAt 0) := by
  refine ⟨by decide, by decide, by decide⟩

/-- Full correctness of `extract_function` at the top of the stack: the
amended C1, kept as a helper for the dispatcher safety proofs. -/
theorem extract_function_correct (fname : String) (farity : Nat) (table : Table)
    (stack : List Token) (hOK : ∀ t ∈ stack, isExprToken t = true) :
    (∀ j, extract_function fname farity table stack stack.length = some (.FoundAt j)
        ↔ isOneExpr (extArityD fname farity table) (stack.drop j))
      ∧ (extract_function fname farity table stack stack.length = some .NotFound
        ↔ ∀ j, ¬ isOneExpr (extArityD fname farity table) (stack.drop j)) := by
  have hchar := ext_aux_char fname farity table stack hOK stack.length le_rfl 1
  have hseg : ∀ k, segT stack k stack.length = stack.drop k := by
    intro k
    unfold segT
    rw [List.take_length]
  have hfound : ∀ j, extract_function fname farity table stack stack.length
      = some (.FoundAt j) ↔ isOneExpr (extArityD fname farity table) (stack.drop j) := by
    intro j
    rw [show extract_function fname farity table stack stack.length
      = extract_function_aux fname farity table stack stack.length 1 from rfl]
    rw [hchar.1 j]
    unfold isOneExpr
    constructor
    · rintro ⟨hj, hw, hcond⟩
      rw [hseg j] at hw
      refine ⟨by exact_mod_cast hw, ?_⟩
      intro k hk hk0
      have hlen : (stack.drop j).length = stack.length - j := by simp
      have := hcond (j + k) (by omega) (by omega)
      rw [hseg (j + k)] at this
      have hdd : (stack.drop j).drop k = stack.drop (j + k) := by
        rw [List.drop_drop]
      rw [hdd]
      omega
    · rintro ⟨hw, hcond⟩
      have hj : j ≤ stack.length := by
        by_contra hgt
        rw [List.drop_eq_nil_of_le (by omega)] at hw
        simp [listWeight_nil] at hw
      refine ⟨hj, by rw [hseg j]; exact_mod_cast hw, ?_⟩
      intro k hk1 hk2
      rw [hseg k]
      rcases Nat.lt_or_ge k stack.length with hkl | hkl
      · have hdd : (stack.drop j).drop (k - j) = stack.drop k := by
          rw [List.drop_drop]
          congr 1
          omega
        have := hcond (k - j) (by simp [List.length_drop]; omega) (by omega)
        rw [hdd] at this
        omega
      · rw [List.drop_eq_nil_of_le (by omega), listWeight_nil]
        omega
  refine ⟨hfound, ?_, ?_⟩
  · intro hnf j hone
    have := (hfound j).mpr hone
    rw [this] at hnf
    simp at hnf
  · intro hall
    obtain ⟨r, hr⟩ := ext_aux_total fname farity table stack hOK stack.length le_rfl 1
    match r with
    | .NotFound => exact hr
    | .FoundAt j =>
      exact absurd ((hfound j).mp hr) (hall j)

/-- C1 (amended): on a stack of expression tokens, scanning from the top
with `need := need + arity − 1` (identifier arity from the table, with the
self-reference override; unknown names and variables counting 0),
`extract_function` returns `FoundAt j` iff the slice `[j, end)` is *exactly
one complete postfix expression* — cumulative arity exactly 1 *and* every
proper suffix has cumulative arity at most 0 — and returns `NotFound` iff
no suffix of the stack is one complete expression. -/
theorem claim_C1 (fname : String) (farity : Nat) (table : Table) (stack : List Token)
    (hOK : ∀ t ∈ stack, isExprToken t = true) :
    (∀ j, extract_function fname farity table stack stack.length = some (.FoundAt j)
        ↔ isOneExpr (extArityD fname farity table) (stack.drop j))
      ∧ (extract_function fname farity table stack stack.length = some .NotFound
        ↔ ∀ j, ¬ isOneExpr (extArityD fname farity table) (stack.drop j)) :=
  extract_function_correct fname farity table stack hOK

/-- Witness for the amended C1: on the stack `2 3 +` the extractor answers
`FoundAt 0` — the whole stack is one complete expression. -/
theorem claim_C1_witness :
    extract_function ("f") 0 [] [.Number 2, .Number 3, .Plus] 3 = some (.FoundAt 0) := by
  have h := (claim_C1 ("f") 0 [] [.Number 2, .Number 3, .Plus] (by decide)).1 0
  rw [show ([.Number 2, .Number 3, .Plus] : List Token).length = 3 from rfl] at h
  exact h.mpr (by decide)

/-! ### Table lemmas -/

theorem lookupT_insertT_self (table : Table) (name : String) (obj : Object) :
    lookupT (insertT table name obj) name = some obj := by
  simp [insertT, lookupT]

theorem lookupT_insertT_ne (table : Table) (name : String) (obj : Object)
    (other : String) (h : other ≠ name) :
    lookupT (insertT table name obj) other = lookupT table other := by
  simp [insertT, lookupT, Ne.symm h]

/-! ### Claim C10 (Argument tokens abort top-level computations) -/

/-- C10: whenever the extraction scan of `clip_head` runs into an `Argument`
token, the `Arguments are only allowed in functions` diagnostic is emitted,
the extraction reports no expression and leaves the stack unchanged, and
every action going through `compute`/`compute_all` aborts with its
incomplete-expression diagnostic without touching the stack or the table. -/
theorem claim_C10 (fuel : Nat) (stack : List Token) (table : Table)
    (h : clip_head_aux table stack stack.length 1 = .argHit) :
    clip_head stack table = some ([], stack, [argMsg])
      ∧ compute fuel stack table = some (none, stack, [argMsg])
      ∧ analyze fuel ⟨stack, table⟩ .Return
          = some (⟨stack, table⟩, [argMsg, incompleteMsg])
      ∧ analyze fuel ⟨stack, table⟩ .Partial
          = some (⟨stack, table⟩, [argMsg, incompleteMsg])
      ∧ analyze fuel ⟨stack, table⟩ .Approx
          = some (⟨stack, table⟩, [argMsg, incompleteMsg])
      ∧ analyze fuel ⟨stack, table⟩ .Format
          = some (⟨stack, table⟩, [argMsg, incompleteMsg])
      ∧ analyze fuel ⟨stack, table⟩ .Duplicate
          = some (⟨stack, table⟩, [argMsg, incompleteDroppedMsg])
      ∧ (∀ name, analyze fuel ⟨stack, table⟩ (.AssignVariable name)
          = some (⟨stack, table⟩, [argMsg, incompleteDroppedMsg]))
      ∧ analyze fuel ⟨stack, table⟩ .Flush
          = some (⟨stack, table⟩, [argMsg, incompleteMsg]) := by
  have hch : clip_head stack table = some ([], stack, [argMsg]) := by
    unfold clip_head
    rw [h]
  have hco : compute fuel stack table = some (none, stack, [argMsg]) := by
    unfold compute
    rw [hch]
    rfl
  have hne : stack ≠ [] := by
    intro he
    subst he
    simp [clip_head_aux] at h
  have hfl : analyze fuel ⟨stack, table⟩ .Flush
      = some (⟨stack, table⟩, [argMsg, incompleteMsg]) := by
    obtain ⟨t, rest, rfl⟩ : ∃ t rest, stack = t :: rest := by
      match stack, hne with
      | t :: rest, _ => exact ⟨t, rest, rfl⟩
    have haux : compute_all_aux table (t :: rest).length (t :: rest)
        = some ([none], t :: rest, [argMsg]) := by
      rw [List.length_cons]
      unfold compute_all_aux
      rw [if_neg (by simp), hch]
      rfl
    simp only [analyze]
    unfold compute_all
    rw [haux]
    rfl
  refine ⟨hch, hco, ?_, ?_, ?_, ?_, ?_, ?_, hfl⟩
  · simp only [analyze]
    rw [hco]
    rfl
  · simp only [analyze]
    rw [hco]
    rfl
  · simp only [analyze]
    rw [hco]
    rfl
  · simp only [analyze]
    rw [hco]
    rfl
  · simp only [analyze]
    rw [hco]
    rfl
  · intro name
    simp only [analyze]
    rw [hco]
    rfl

/-- Witness for C10: a lone `$0` on the stack aborts `Return`-style
computation with both diagnostics. -/
theorem claim_C10_witness :
    compute 1 [.Argument 0] [] = some (none, [.Argument 0], [argMsg]) :=
  (claim_C10 1 [.Argument 0] [] (by decide)).2.1

/-! ### Claim C8 (failed AssignIterative keeps the prior binding and stack) -/

/-- The table left behind by a failed `AssignIterative`: the sentinel is
installed, then the old object (if any) is re-inserted on top of it. -/
def assignIterFailTable (table : Table) (name : String) (arity : Nat) : Table :=
  match lookupT table name with
  | some object => insertT (insertT table name (sentinel arity)) name object
  | none => insertT table name (sentinel arity)

/-- C8: if the `arity + 2` extractions of an `AssignIterative` do not all
succeed, the action leaves the working stack exactly as it was, and any
binding the name had before the action is in force afterwards (other names
are untouched as well). -/
theorem claim_C8 (fuel : Nat) (c : Calc) (name : String) (arity : Nat)
    (indices : List Nat) (ds : List String)
    (hcol : collect_indices name arity c.table c.stack (arity + 2) c.stack.length
      = some (indices, ds))
    (hfail : indices.length ≠ arity + 2) :
    analyze fuel c (.AssignIterative name arity)
        = some (⟨c.stack, assignIterFailTable c.table name arity⟩, ds)
      ∧ (∀ ob, lookupT c.table name = some ob →
          lookupT (assignIterFailTable c.table name arity) name = some ob)
      ∧ (∀ other, other ≠ name →
          lookupT (assignIterFailTable c.table name arity) other
            = lookupT c.table other) := by
  refine ⟨?_, ?_, ?_⟩
  · show (match collect_indices name arity c.table c.stack (arity + 2) c.stack.length with
      | none => none
      | some (indices, ds) => _) = _
    rw [hcol]
    simp only
    rw [if_neg (by omega)]
    unfold assignIterFailTable
    match hold : lookupT c.table name with
    | some object => rfl
    | none => rfl
  · intro ob hob
    unfold assignIterFailTable
    rw [hob]
    exact lookupT_insertT_self _ _ _
  · intro other hother
    unfold assignIterFailTable
    match hold : lookupT c.table name with
    | some object =>
      rw [lookupT_insertT_ne _ _ _ _ hother, lookupT_insertT_ne _ _ _ _ hother]
    | none =>
      rw [lookupT_insertT_ne _ _ _ _ hother]

/-- Witness for C8: with a prior binding `f ↦ Variable 7` and an empty
stack, `f@0` fails its extractions and the old binding survives. -/
theorem claim_C8_witness :
    analyze 1 ⟨[], [(("f"), Object.Variable 7)]⟩ (.AssignIterative ("f") 0)
        = some (⟨[], assignIterFailTable [(("f"), Object.Variable 7)] ("f") 0⟩,
            [incompleteFunMsg])
      ∧ lookupT (assignIterFailTable [(("f"), Object.Variable 7)] ("f") 0) ("f")
        = some (Object.Variable 7) := by
  have h := claim_C8 1 ⟨[], [(("f"), Object.Variable 7)]⟩ ("f") 0 [] [incompleteFunMsg]
    (by rfl) (by decide)
  exact ⟨h.1, h.2.1 (Object.Variable 7) (by rfl)⟩

/-! ### Claim C9: the dispatcher never corrupts the stack

Infrastructure: characterization of the `clip_head` scan, safety of the
tree builder on complete slices, and safety of every `analyze` branch. -/

/-- The stack predicate of C9: only expression-forming tokens. -/
def stackOK (l : List Token) : Prop :=
  ∀ t ∈ l, isExprToken t = true

/-- Recognizer for `Argument` tokens (which `clip_head` rejects). -/
def isArgToken : Token → Bool
  | .Argument _ => true
  | _ => false

/-- Total operand count for the tree builder (and the `Drop` loop). -/
def buildArityD (table : Table) (t : Token) : Nat :=
  (buildArity table t).getD 0

theorem buildArity_of_expr (table : Table) (t : Token) (h : isExprToken t = true) :
    buildArity table t = some (buildArityD table t) := by
  cases t <;> simp_all [buildArity, buildArityD, isExprToken]

/-- One loop step of `clip_head` on a non-`Argument` expression token. -/
theorem clip_aux_step (table : Table) (stack : List Token) (i tc : Nat)
    (hexpr : isExprToken (stack.getD i .Error) = true)
    (harg : isArgToken (stack.getD i .Error) = false) :
    clip_head_aux table stack (i + 1) (tc + 1)
      = clip_head_aux table stack i (tc + buildArityD table (stack.getD i .Error)) := by
  rcases ht : stack.getD i .Error <;>
    rw [ht] at hexpr harg <;>
    simp_all [clip_head_aux, buildArityD, buildArity, isExprToken, isArgToken]

/-- The `Argument` arm of the `clip_head` loop. -/
theorem clip_aux_step_arg (table : Table) (stack : List Token) (i tc idx : Nat)
    (ht : stack.getD i .Error = .Argument idx) :
    clip_head_aux table stack (i + 1) (tc + 1) = .argHit := by
  simp only [clip_head_aux]
  rw [ht]

/-- The corrupted-stack arm of the `clip_head` loop. -/
theorem clip_aux_step_corrupt (table : Table) (stack : List Token) (i tc : Nat)
    (hexpr : isExprToken (stack.getD i .Error) = false) :
    clip_head_aux table stack (i + 1) (tc + 1) = .corrupt := by
  simp only [clip_head_aux]
  rcases ht : stack.getD i .Error <;> simp_all [isExprToken]

/-- On a stack of expression tokens the `clip_head` scan never panics. -/
theorem clip_aux_no_corrupt (table : Table) (stack : List Token) (hOK : stackOK stack) :
    ∀ i, i ≤ stack.length → ∀ tc, clip_head_aux table stack i tc ≠ .corrupt := by
  intro i
  induction i with
  | zero =>
    intro _ tc
    match tc with
    | 0 => simp [clip_head_aux]
    | tc + 1 => simp [clip_head_aux]
  | succ i ih =>
    intro hi tc
    match tc with
    | 0 => simp [clip_head_aux]
    | tc + 1 =>
      have hexpr : isExprToken (stack.getD i .Error) = true :=
        hOK _ (getD_mem_of_lt stack i (by omega))
      by_cases harg : isArgToken (stack.getD i .Error) = true
      · obtain ⟨idx, hidx⟩ : ∃ idx, stack.getD i .Error = .Argument idx := by
          rcases ht : stack.getD i .Error <;> rw [ht] at harg <;>
            simp_all [isArgToken]
        rw [clip_aux_step_arg table stack i tc idx hidx]
        simp
      · rw [clip_aux_step table stack i tc hexpr (by simp_all)]
        exact ih (by omega) _

/-- Forward characterization of a successful `clip_head` scan: the found
slice has cumulative arity `tc` and all of its proper suffixes stay
strictly below `tc`. -/
theorem clip_aux_found (table : Table) (stack : List Token) :
    ∀ i, i ≤ stack.length → ∀ tc j, clip_head_aux table stack i tc = .found j →
      j ≤ i ∧ listWeight (buildArityD table) (segT stack j i) = (tc : ℤ)
        ∧ ∀ k, j < k → k ≤ i → listWeight (buildArityD table) (segT stack k i) < (tc : ℤ) := by
  intro i
  induction i with
  | zero =>
    intro _ tc j h
    match tc with
    | 0 =>
      simp only [clip_head_aux, ClipRes.found.injEq] at h
      subst h
      refine ⟨le_rfl, by rw [segT_zero_len, listWeight_nil]; simp, ?_⟩
      intro k hk1 hk2
      omega
    | tc + 1 => simp [clip_head_aux] at h
  | succ i ih =>
    intro hi tc j h
    have hi' : i < stack.length := by omega
    match tc with
    | 0 =>
      simp only [clip_head_aux, ClipRes.found.injEq] at h
      subst h
      refine ⟨le_rfl, by rw [segT_self, listWeight_nil]; simp, ?_⟩
      intro k hk1 hk2
      omega
    | tc + 1 =>
      by_cases hexpr : isExprToken (stack.getD i .Error) = true
      · by_cases harg : isArgToken (stack.getD i .Error) = true
        · obtain ⟨idx, hidx⟩ : ∃ idx, stack.getD i .Error = .Argument idx := by
            rcases ht : stack.getD i .Error <;> rw [ht] at harg <;>
              simp_all [isArgToken]
          rw [clip_aux_step_arg table stack i tc idx hidx] at h
          simp at h
        · rw [clip_aux_step table stack i tc hexpr (by simp_all)] at h
          obtain ⟨hj, hw, hcond⟩ := ih (by omega) _ j h
          set a := buildArityD table (stack.getD i .Error) with ha
          have hshift : ∀ j', j' ≤ i →
              listWeight (buildArityD table) (segT stack j' (i + 1))
                = listWeight (buildArityD table) (segT stack j' i) + (1 - (a : ℤ)) := by
            intro j' hj'
            rw [segT_succ stack j' i hj' hi', listWeight_append, listWeight_singleton]
          refine ⟨by omega, ?_, ?_⟩
          · rw [hshift j hj, hw]
            push_cast
            omega
          · intro k hk1 hk2
            rcases Nat.lt_or_ge k (i + 1) with hklt | hkge
            · have := hcond k hk1 (by omega)
              rw [hshift k (by omega)]
              push_cast at this ⊢
              omega
            · have : k = i + 1 := by omega
              subst this
              rw [segT_self, listWeight_nil]
              push_cast
              omega
      · exfalso
        rw [clip_aux_step_corrupt table stack i tc (by simp_all)] at h
        simp at h

/-! ### Safety of the tree builder on complete slices -/

theorem listWeight_take_drop (w : Token → Nat) (l : List Token) (k : Nat) :
    listWeight w l = listWeight w (l.take k) + listWeight w (l.drop k) := by
  conv_lhs => rw [← List.take_append_drop k l]
  rw [listWeight_append]

theorem listWeight_drop_cons (w : Token → Nat) (l : List Token) (k : Nat)
    (hk : k < l.length) :
    listWeight w (l.drop k) = (1 - (w (l.getD k .Error) : ℤ)) + listWeight w (l.drop (k + 1)) := by
  rw [List.drop_eq_getElem_cons hk]
  have : l[k] = l.getD k .Error := by
    rw [List.getD_eq_getElem?_getD, List.getElem?_eq_getElem hk]
    rfl
  rw [this]
  simp [listWeight]

/-- Generalized builder safety: if at every position the scratch stack is
long enough for the token's operand count, the builder succeeds and the
final scratch length is the initial one plus the slice's cumulative
arity. -/
theorem parse_tree_aux_safe (table : Table) :
    ∀ (tokens : List Token) (acc : List ExecTree),
      (∀ t ∈ tokens, isExprToken t = true) →
      (∀ k, k < tokens.length →
        (buildArityD table (tokens.getD k .Error) : ℤ)
          ≤ (acc.length : ℤ) + listWeight (buildArityD table) (tokens.take k)) →
      ∃ acc', parse_tree_aux table tokens acc = some acc'
        ∧ ((acc'.length : ℤ)
            = (acc.length : ℤ) + listWeight (buildArityD table) tokens) := by
  intro tokens
  induction tokens with
  | nil =>
    intro acc _ _
    exact ⟨acc, rfl, by rw [listWeight_nil]; omega⟩
  | cons t rest ih =>
    intro acc hOK hpre
    have hexpr := hOK t (by simp)
    have ha := buildArity_of_expr table t hexpr
    have h0 := hpre 0 (by simp)
    rw [List.take_zero, listWeight_nil] at h0
    have hle : buildArityD table t ≤ acc.length := by
      have : (t :: rest).getD 0 .Error = t := rfl
      rw [this] at h0
      omega
    simp only [parse_tree_aux]
    rw [ha]
    dsimp only
    rw [if_neg (by omega)]
    set a := buildArityD table t with hadef
    set acc1 := acc.take (acc.length - a) ++ [ExecTree.mk t (acc.drop (acc.length - a))]
      with hacc1
    have hlen1 : acc1.length = acc.length - a + 1 := by
      rw [hacc1]
      simp only [List.length_append, List.length_take, List.length_cons, List.length_nil]
      omega
    have hpre1 : ∀ k, k < rest.length →
        (buildArityD table (rest.getD k .Error) : ℤ)
          ≤ (acc1.length : ℤ) + listWeight (buildArityD table) (rest.take k) := by
      intro k hk
      have hp := hpre (k + 1) (by simpa using hk)
      have hgd : (t :: rest).getD (k + 1) .Error = rest.getD k .Error := rfl
      have htk : (t :: rest).take (k + 1) = t :: rest.take k := rfl
      rw [hgd, htk] at hp
      have hw : listWeight (buildArityD table) (t :: rest.take k)
          = (1 - (a : ℤ)) + listWeight (buildArityD table) (rest.take k) := by
        have : (t :: rest.take k) = [t] ++ rest.take k := rfl
        rw [this, listWeight_append, listWeight_singleton]
      rw [hw] at hp
      rw [hlen1]
      push_cast
      omega
    obtain ⟨acc', hrun, hlen'⟩ := ih acc1 (fun x hx => hOK x (by simp [hx])) hpre1
    refine ⟨acc', hrun, ?_⟩
    rw [hlen']
    have hw : listWeight (buildArityD table) (t :: rest)
        = (1 - (a : ℤ)) + listWeight (buildArityD table) rest := by
      have : (t :: rest) = [t] ++ rest := rfl
      rw [this, listWeight_append, listWeight_singleton]
    rw [hw, hlen1]
    push_cast
    omega

/-- A complete slice of expression tokens always builds into one tree. -/
theorem parse_tree_safe (table : Table) (slice : List Token)
    (hOK : ∀ t ∈ slice, isExprToken t = true)
    (hone : isOneExpr (buildArityD table) slice) :
    ∃ tree, parse_tree table slice = some tree := by
  have hpre : ∀ k, k < slice.length →
      (buildArityD table (slice.getD k .Error) : ℤ)
        ≤ (([] : List ExecTree).length : ℤ)
          + listWeight (buildArityD table) (slice.take k) := by
    intro k hk
    have hsplit := listWeight_take_drop (buildArityD table) slice k
    have hcons := listWeight_drop_cons (buildArityD table) slice k hk
    have hsuf : listWeight (buildArityD table) (slice.drop (k + 1)) ≤ 0 := by
      rcases Nat.lt_or_ge (k + 1) slice.length with hl | hl
      · exact hone.2 (k + 1) hl (by omega)
      · rw [List.drop_eq_nil_of_le hl, listWeight_nil]
    have h1 := hone.1
    simp only [List.length_nil, Nat.cast_zero]
    omega
  obtain ⟨acc', hrun, hlen⟩ := parse_tree_aux_safe table slice [] hOK hpre
  have hlen1 : acc'.length = 1 := by
    rw [hone.1] at hlen
    simp at hlen
    omega
  unfold parse_tree
  rw [hrun]
  match acc', hlen1 with
  | [x], _ => exact ⟨x, rfl⟩

/-- The arity map used by `extract_function` for a declaration of `fname`
at arity `farity` agrees, on every token, with the builder's arity map once
the sentinel `Function(farity, 0)` is installed under `fname`. -/
theorem tableArity_insertT_sentinel (table : Table) (fname : String) (farity : Nat)
    (name : String) :
    tableArity (insertT table fname (sentinel farity)) name
      = if name = fname then farity else tableArity table name := by
  by_cases h : name = fname
  · subst h
    simp [tableArity, lookupT_insertT_self, sentinel]
  · rw [if_neg h, tableArity, lookupT_insertT_ne _ _ _ _ h]
    rfl

theorem extArityD_eq_sentinel (fname : String) (farity : Nat) (table : Table) :
    extArityD fname farity table
      = buildArityD (insertT table fname (sentinel farity)) := by
  funext t
  cases t <;>
    simp [extArityD, extArity, buildArityD, buildArity, tableArity_insertT_sentinel]

/-! ### Safety of the scanners and of every dispatcher branch -/

theorem stackOK_nil : stackOK [] := by
  intro t ht
  simp at ht

theorem stackOK_take (l : List Token) (h : stackOK l) (n : Nat) : stackOK (l.take n) :=
  fun t ht => h t (List.mem_of_mem_take ht)

theorem stackOK_push (l : List Token) (h : stackOK l) (t : Token)
    (ht : isExprToken t = true) : stackOK (l ++ [t]) := by
  intro x hx
  rcases List.mem_append.mp hx with hx | hx
  · exact h x hx
  · simp at hx
    subst hx
    exact ht

/-- A successful `clip_head` scan from the top of the stack found a complete
expression suffix. -/
theorem clip_found_one (table : Table) (stack : List Token) (i : Nat)
    (h : clip_head_aux table stack stack.length 1 = .found i) :
    isOneExpr (buildArityD table) (stack.drop i) := by
  obtain ⟨hi, hw, hcond⟩ := clip_aux_found table stack stack.length le_rfl 1 i h
  have hseg : ∀ k, segT stack k stack.length = stack.drop k := by
    intro k
    unfold segT
    rw [List.take_length]
  rw [hseg] at hw
  refine ⟨by exact_mod_cast hw, ?_⟩
  intro k hk hk0
  rw [List.length_drop] at hk
  have hdd : (stack.drop i).drop k = stack.drop (i + k) := by
    rw [List.drop_drop]
  have hc := hcond (i + k) (by omega) (by omega)
  rw [hseg] at hc
  rw [hdd]
  push_cast at hc
  omega

/-- On a stack of expression tokens, `clip_head` never panics, leaves only
expression tokens behind, and a nonempty extracted slice is one complete
expression. -/
theorem clip_head_safe (table : Table) (stack : List Token) (hOK : stackOK stack) :
    ∃ expression rest ds,
      clip_head stack table = some (expression, rest, ds)
        ∧ stackOK rest ∧ stackOK expression
        ∧ (expression ≠ [] → isOneExpr (buildArityD table) expression) := by
  rcases hres : clip_head_aux table stack stack.length 1 with i | _ | _ | _
  · refine ⟨stack.drop i, stack.take i, [], ?_, stackOK_take stack hOK i,
      fun t ht => hOK t (List.mem_of_mem_drop ht), fun _ => clip_found_one table stack i hres⟩
    simp only [clip_head]
    rw [hres]
  · refine ⟨[], stack, [], ?_, hOK, stackOK_nil, fun h => absurd rfl h⟩
    simp only [clip_head]
    rw [hres]
  · refine ⟨[], stack, [argMsg], ?_, hOK, stackOK_nil, fun h => absurd rfl h⟩
    simp only [clip_head]
    rw [hres]
  · exact absurd hres (clip_aux_no_corrupt table stack hOK stack.length le_rfl 1)

/-- On a stack of expression tokens, `compute` never panics and leaves only
expression tokens behind. -/
theorem compute_safe (fuel : Nat) (stack : List Token) (table : Table)
    (hOK : stackOK stack) :
    ∃ res rest ds, compute fuel stack table = some (res, rest, ds) ∧ stackOK rest := by
  obtain ⟨expression, rest, ds, hclip, hrestOK, hexprOK, hone⟩ :=
    clip_head_safe table stack hOK
  by_cases hlen : expression.length = 0
  · refine ⟨none, rest, ds, ?_, hrestOK⟩
    simp only [compute]
    rw [hclip]
    dsimp only
    rw [if_pos hlen]
  · have hne : expression ≠ [] := by
      intro hnil
      rw [hnil] at hlen
      exact hlen rfl
    obtain ⟨tree, htree⟩ := parse_tree_safe table expression hexprOK (hone hne)
    refine ⟨rresToOpt (reduce fuel fuel tree table []), rest, ds, ?_, hrestOK⟩
    simp only [compute]
    rw [hclip]
    dsimp only
    rw [if_neg hlen, htree]

/-- On a stack of expression tokens, the collection loop of `compute_all`
never panics and leaves only expression tokens behind. -/
theorem compute_all_aux_safe (table : Table) :
    ∀ (fuel : Nat) (stack : List Token), stackOK stack →
      ∃ trees rest ds, compute_all_aux table fuel stack = some (trees, rest, ds)
        ∧ stackOK rest := by
  intro fuel
  induction fuel with
  | zero =>
    intro stack hOK
    exact ⟨[], stack, [], rfl, hOK⟩
  | succ fuel ih =>
    intro stack hOK
    by_cases hlen : stack.length = 0
    · refine ⟨[], stack, [], ?_, hOK⟩
      simp only [compute_all_aux]
      rw [if_pos hlen]
    · obtain ⟨expression, rest, ds, hclip, hrestOK, hexprOK, hone⟩ :=
        clip_head_safe table stack hOK
      by_cases hexprlen : expression.length = 0
      · refine ⟨[none], rest, ds, ?_, hrestOK⟩
        simp only [compute_all_aux]
        rw [if_neg hlen, hclip]
        dsimp only
        rw [if_pos hexprlen]
      · have hne : expression ≠ [] := by
          intro hnil
          rw [hnil] at hexprlen
          exact hexprlen rfl
        obtain ⟨tree, htree⟩ := parse_tree_safe table expression hexprOK (hone hne)
        obtain ⟨trees, rest1, ds1, hrec, hrest1⟩ := ih rest hrestOK
        refine ⟨some tree :: trees, rest1, ds ++ ds1, ?_, hrest1⟩
        simp only [compute_all_aux]
        rw [if_neg hlen, hclip]
        dsimp only
        rw [if_neg hexprlen, htree, hrec]

/-- On a stack of expression tokens, `compute_all` never panics and leaves
only expression tokens behind. -/
theorem compute_all_safe (fuel : Nat) (stack : List Token) (table : Table)
    (hOK : stackOK stack) :
    ∃ results rest ds, compute_all fuel stack table = some (results, rest, ds)
      ∧ stackOK rest := by
  obtain ⟨trees, rest, ds, haux, hrestOK⟩ :=
    compute_all_aux_safe table stack.length stack hOK
  refine ⟨trees.map (fun tr =>
    match tr with
    | none => none
    | some tree => rresToOpt (reduce fuel fuel tree table [])), rest, ds, ?_, hrestOK⟩
  simp only [compute_all]
  rw [haux]

/-- On a reversed stack of expression tokens, the `Drop` loop never panics
and returns only expression tokens. -/
theorem drop_aux_safe (table : Table) :
    ∀ (revStack : List Token), (∀ t ∈ revStack, isExprToken t = true) →
      ∀ tc, ∃ out, drop_aux table tc revStack = some out
        ∧ ∀ t ∈ out, isExprToken t = true := by
  intro revStack
  induction revStack with
  | nil =>
    intro _ tc
    match tc with
    | 0 => exact ⟨[], rfl, by intro t ht; simp at ht⟩
    | tc + 1 => exact ⟨[], rfl, by intro t ht; simp at ht⟩
  | cons t rest ih =>
    intro hOK tc
    match tc with
    | 0 => exact ⟨t :: rest, rfl, hOK⟩
    | tc + 1 =>
      have ha := buildArity_of_expr table t (hOK t (by simp))
      obtain ⟨out, hout, houtOK⟩ := ih (fun x hx => hOK x (by simp [hx]))
        (tc + buildArityD table t)
      refine ⟨out, ?_, houtOK⟩
      simp only [drop_aux]
      rw [ha]
      exact hout

/-- A successful `extract_function` scan from index `i` found a complete
expression slice `[j, i)`. -/
theorem ext_found_one (fname : String) (farity : Nat) (table : Table)
    (stack : List Token) (hOK : stackOK stack) (i : Nat) (hi : i ≤ stack.length)
    (j : Nat) (h : extract_function_aux fname farity table stack i 1 = some (.FoundAt j)) :
    j ≤ i ∧ isOneExpr (extArityD fname farity table) (segT stack j i) := by
  obtain ⟨hj, hw, hcond⟩ := ((ext_aux_char fname farity table stack hOK i hi 1).1 j).mp h
  refine ⟨hj, by exact_mod_cast hw, ?_⟩
  intro k hk hk0
  have hlen : (segT stack j i).length = i - j := by
    unfold segT
    rw [List.length_drop, List.length_take]
    omega
  rw [hlen] at hk
  have hdd : (segT stack j i).drop k = segT stack (j + k) i := by
    unfold segT
    rw [List.drop_drop]
  have hc := hcond (j + k) (by omega) (by omega)
  rw [hdd]
  push_cast at hc
  omega

theorem split_indices_cons (base : List Token) (j : Nat) (rest : List Nat) :
    split_indices base (j :: rest)
      = (base.drop j :: (split_indices (base.take j) rest).1,
         (split_indices (base.take j) rest).2) := by
  rcases h : split_indices (base.take j) rest with ⟨s, r⟩
  simp [split_indices, h]

/-- Every token left behind by the splitting loop comes from the input
stack. -/
theorem split_indices_rem_mem :
    ∀ (l : List Nat) (base : List Token) (t : Token),
      t ∈ (split_indices base l).2 → t ∈ base := by
  intro l
  induction l with
  | nil =>
    intro base t ht
    exact ht
  | cons j rest ih =>
    intro base t ht
    rw [split_indices_cons] at ht
    exact List.mem_of_mem_take (ih (base.take j) t ht)

/-- On a stack of expression tokens the `AssignIterative` extraction loop
never panics, and every slice it delimits builds into a tree under the
sentinel table. -/
theorem collect_build_safe (fname : String) (farity : Nat) (table : Table)
    (stack : List Token) (hOK : stackOK stack) :
    ∀ count index, index ≤ stack.length →
      ∃ indices ds,
        collect_indices fname farity table stack count index = some (indices, ds)
          ∧ ∃ trees,
              build_all (insertT table fname (sentinel farity))
                (split_indices (stack.take index) indices).1 = some trees := by
  intro count
  induction count with
  | zero =>
    intro index _
    exact ⟨[], [], rfl, [], rfl⟩
  | succ count ih =>
    intro index hi
    obtain ⟨r, hr⟩ := ext_aux_total fname farity table stack hOK index hi 1
    have hr1 : extract_function fname farity table stack index = some r := hr
    match r with
    | .NotFound =>
      refine ⟨[], [incompleteFunMsg], ?_, [], rfl⟩
      simp only [collect_indices]
      rw [hr1]
    | .FoundAt j =>
      obtain ⟨hj, hone⟩ := ext_found_one fname farity table stack hOK index hi j hr
      rw [extArityD_eq_sentinel] at hone
      obtain ⟨indices1, ds1, hcol1, trees1, hbuild1⟩ := ih j (by omega)
      have hsliceOK : ∀ t ∈ segT stack j index, isExprToken t = true := by
        intro t ht
        exact hOK t (List.mem_of_mem_take (List.mem_of_mem_drop ht))
      obtain ⟨tree, htree⟩ :=
        parse_tree_safe (insertT table fname (sentinel farity)) _ hsliceOK hone
      refine ⟨j :: indices1, ds1, ?_, tree :: trees1, ?_⟩
      · simp only [collect_indices]
        rw [hr1]
        dsimp only
        rw [hcol1]
      · rw [split_indices_cons]
        dsimp only
        have htt : (stack.take index).take j = stack.take j := by
          rw [List.take_take]
          congr 1
          omega
        have hseg1 : (stack.take index).drop j = segT stack j index := rfl
        rw [htt, hseg1]
        simp only [build_all]
        rw [htree]
        dsimp only
        rw [hbuild1]

/-- On a calculator whose stack holds only expression tokens, every branch
of `analyze` runs without panicking and keeps the stack invariant. -/
theorem analyze_safe (fuel : Nat) (c : Calc) (t : Token) (hOK : stackOK c.stack) :
    ∃ c1 ds, analyze fuel c t = some (c1, ds) ∧ stackOK c1.stack := by
  cases t with
  | Identifier name =>
    exact ⟨⟨c.stack ++ [Token.Identifier name], c.table⟩, [], rfl,
      stackOK_push _ hOK _ rfl⟩
  | AssignVariable name =>
    obtain ⟨res, rest, ds, hc, hrest⟩ := compute_safe fuel c.stack c.table hOK
    rcases res with _ | v
    · refine ⟨⟨rest, c.table⟩, ds ++ [incompleteDroppedMsg], ?_, hrest⟩
      simp only [analyze]
      rw [hc]
    · refine ⟨⟨rest, insertT c.table name (.Variable v)⟩, ds, ?_, hrest⟩
      simp only [analyze]
      rw [hc]
  | AssignFunction name arity =>
    obtain ⟨r, hr⟩ := ext_aux_total name arity c.table c.stack hOK c.stack.length le_rfl 1
    have hr1 : extract_function name arity c.table c.stack c.stack.length = some r := hr
    match r with
    | .NotFound =>
      refine ⟨c, [incompleteFunMsg], ?_, hOK⟩
      simp only [analyze]
      rw [hr1]
    | .FoundAt index =>
      have hone := ((extract_function_correct name arity c.table c.stack hOK).1 index).mp hr1
      rw [extArityD_eq_sentinel] at hone
      have hsliceOK : ∀ x ∈ c.stack.drop index, isExprToken x = true :=
        fun x hx => hOK x (List.mem_of_mem_drop hx)
      obtain ⟨tree, htree⟩ :=
        parse_tree_safe (insertT c.table name (sentinel arity)) _ hsliceOK hone
      refine ⟨⟨c.stack.take index,
        insertT (insertT c.table name (sentinel arity)) name (.Function arity tree)⟩, [],
        ?_, stackOK_take _ hOK _⟩
      simp only [analyze]
      rw [hr1]
      dsimp only
      rw [htree]
  | AssignIterative name arity =>
    obtain ⟨indices, ds, hcol, trees, hbuild⟩ :=
      collect_build_safe name arity c.table c.stack hOK (arity + 2) c.stack.length le_rfl
    rw [List.take_length] at hbuild
    by_cases hlen : arity + 2 = indices.length
    · rcases hsp : split_indices c.stack indices with ⟨slices, remaining⟩
      rw [hsp] at hbuild
      dsimp only at hbuild
      have hremOK : stackOK remaining := by
        intro x hx
        refine hOK x (split_indices_rem_mem indices c.stack x ?_)
        rw [hsp]
        exact hx
      refine ⟨⟨remaining, insertT (insertT c.table name (sentinel arity)) name
        (.Iterative arity (trees.reverse.take arity) (trees.reverse.getD arity defTree)
          (trees.reverse.getD (arity + 1) defTree))⟩, ds, ?_, hremOK⟩
      simp only [analyze]
      rw [hcol]
      dsimp only
      rw [if_pos hlen, hsp]
      dsimp only
      rw [hbuild]
    · rcases hold : lookupT c.table name with _ | obj
      · refine ⟨⟨c.stack, insertT c.table name (sentinel arity)⟩, ds, ?_, hOK⟩
        simp only [analyze]
        rw [hcol]
        dsimp only
        rw [if_neg hlen, hold]
      · refine ⟨⟨c.stack, insertT (insertT c.table name (sentinel arity)) name obj⟩, ds,
          ?_, hOK⟩
        simp only [analyze]
        rw [hcol]
        dsimp only
        rw [if_neg hlen, hold]
  | Argument index =>
    exact ⟨⟨c.stack ++ [Token.Argument index], c.table⟩, [], rfl, stackOK_push _ hOK _ rfl⟩
  | Number value =>
    exact ⟨⟨c.stack ++ [Token.Number value], c.table⟩, [], rfl, stackOK_push _ hOK _ rfl⟩
  | Minus =>
    exact ⟨⟨c.stack ++ [Token.Minus], c.table⟩, [], rfl, stackOK_push _ hOK _ rfl⟩
  | Plus =>
    exact ⟨⟨c.stack ++ [Token.Plus], c.table⟩, [], rfl, stackOK_push _ hOK _ rfl⟩
  | Times =>
    exact ⟨⟨c.stack ++ [Token.Times], c.table⟩, [], rfl, stackOK_push _ hOK _ rfl⟩
  | Divide =>
    exact ⟨⟨c.stack ++ [Token.Divide], c.table⟩, [], rfl, stackOK_push _ hOK _ rfl⟩
  | PositiveMinus =>
    exact ⟨⟨c.stack ++ [Token.PositiveMinus], c.table⟩, [], rfl, stackOK_push _ hOK _ rfl⟩
  | IntegerDiv =>
    exact ⟨⟨c.stack ++ [Token.IntegerDiv], c.table⟩, [], rfl, stackOK_push _ hOK _ rfl⟩
  | Exp =>
    exact ⟨⟨c.stack ++ [Token.Exp], c.table⟩, [], rfl, stackOK_push _ hOK _ rfl⟩
  | ExpMod =>
    exact ⟨⟨c.stack ++ [Token.ExpMod], c.table⟩, [], rfl, stackOK_push _ hOK _ rfl⟩
  | If =>
    exact ⟨⟨c.stack ++ [Token.If], c.table⟩, [], rfl, stackOK_push _ hOK _ rfl⟩
  | Return =>
    obtain ⟨res, rest, ds, hc, hrest⟩ := compute_safe fuel c.stack c.table hOK
    rcases res with _ | v
    · refine ⟨⟨rest, c.table⟩, ds ++ [incompleteMsg], ?_, hrest⟩
      simp only [analyze]
      rw [hc]
    · refine ⟨⟨rest, c.table⟩, ds, ?_, hrest⟩
      simp only [analyze]
      rw [hc]
  | Partial =>
    obtain ⟨res, rest, ds, hc, hrest⟩ := compute_safe fuel c.stack c.table hOK
    rcases res with _ | v
    · refine ⟨⟨rest, c.table⟩, ds ++ [incompleteMsg], ?_, hrest⟩
      simp only [analyze]
      rw [hc]
    · refine ⟨⟨rest ++ [Token.Number v], c.table⟩, ds, ?_, stackOK_push _ hrest _ rfl⟩
      simp only [analyze]
      rw [hc]
  | Print =>
    exact ⟨c, [], rfl, hOK⟩
  | Flush =>
    obtain ⟨results, rest, ds, hc, hrest⟩ := compute_all_safe fuel c.stack c.table hOK
    refine ⟨⟨rest, c.table⟩, ds ++ results.filterMap (fun r =>
      match r with
      | none => some incompleteMsg
      | some _ => none), ?_, hrest⟩
    simp only [analyze]
    rw [hc]
  | Duplicate =>
    obtain ⟨res, rest, ds, hc, hrest⟩ := compute_safe fuel c.stack c.table hOK
    rcases res with _ | v
    · refine ⟨⟨rest, c.table⟩, ds ++ [incompleteDroppedMsg], ?_, hrest⟩
      simp only [analyze]
      rw [hc]
    · refine ⟨⟨rest ++ [Token.Number v, Token.Number v], c.table⟩, ds, ?_, ?_⟩
      · simp only [analyze]
        rw [hc]
      · intro x hx
        rcases List.mem_append.mp hx with hx | hx
        · exact hrest x hx
        · rcases List.mem_cons.mp hx with rfl | hx
          · rfl
          · rcases List.mem_cons.mp hx with rfl | hx
            · rfl
            · simp at hx
  | Drop =>
    obtain ⟨out, hdrop, houtOK⟩ := drop_aux_safe c.table c.stack.reverse
      (fun x hx => hOK x (List.mem_reverse.mp hx)) 1
    refine ⟨⟨out.reverse, c.table⟩, [], ?_, fun x hx => houtOK x (List.mem_reverse.mp hx)⟩
    simp only [analyze]
    rw [hdrop]
  | Empty =>
    exact ⟨⟨[], c.table⟩, [], rfl, stackOK_nil⟩
  | Format =>
    obtain ⟨res, rest, ds, hc, hrest⟩ := compute_safe fuel c.stack c.table hOK
    rcases res with _ | v
    · refine ⟨⟨rest, c.table⟩, ds ++ [incompleteMsg], ?_, hrest⟩
      simp only [analyze]
      rw [hc]
    · refine ⟨⟨rest, c.table⟩, ds, ?_, hrest⟩
      simp only [analyze]
      rw [hc]
  | Approx =>
    obtain ⟨res, rest, ds, hc, hrest⟩ := compute_safe fuel c.stack c.table hOK
    rcases res with _ | v
    · refine ⟨⟨rest, c.table⟩, ds ++ [incompleteMsg], ?_, hrest⟩
      simp only [analyze]
      rw [hc]
    · refine ⟨⟨rest, c.table⟩, ds, ?_, hrest⟩
      simp only [analyze]
      rw [hc]
  | Error =>
    exact ⟨c, [droppedTokenMsg], rfl, hOK⟩

/-- C9: the dispatcher invariant.  Starting from any calculator whose
working stack holds only expression-forming tokens (`Number`, `Argument`,
`Identifier` and the binary/ternary operators) — in particular from the
initial empty calculator — processing any sequence of input tokens never
reaches a panic (`process_tokens` returns `some`, so the
`panic!("Corrupted stack")` arms of the extractor scans, the tree builder
and the `Drop` loop are unreachable), and the resulting working stack again
holds only expression-forming tokens: `Error`, action and assignment tokens
are consumed by `analyze` and never stored. -/
theorem claim_C9 (fuel : Nat) (tokens : List Token) (c : Calc)
    (hOK : stackOK c.stack) :
    ∃ c1 ds, process_tokens fuel c tokens = some (c1, ds) ∧ stackOK c1.stack := by
  induction tokens generalizing c with
  | nil => exact ⟨c, [], rfl, hOK⟩
  | cons t rest ih =>
    obtain ⟨c1, ds1, ha, h1⟩ := analyze_safe fuel c t hOK
    obtain ⟨c2, ds2, hp, h2⟩ := ih c1 h1
    refine ⟨c2, ds1 ++ ds2, ?_, h2⟩
    simp only [process_tokens]
    rw [ha]
    dsimp only
    rw [hp]

/-- Witness for C9: a concrete session (`2 3 + . 4 £ $ d`) processes to the
end with an all-expression stack. -/
theorem claim_C9_witness :
    ∃ c1 ds, process_tokens 9 ⟨[], []⟩
        [.Number 2, .Number 3, .Plus, .Return, .Number 4, .Duplicate, .Flush, .Drop]
      = some (c1, ds) ∧ stackOK c1.stack :=
  claim_C9 9 [.Number 2, .Number 3, .Plus, .Return, .Number 4, .Duplicate, .Flush, .Drop]
    ⟨[], []⟩ (by intro t ht; simp at ht)

end RpnC
